import Mathlib

/-!
Shallow embedding of the workflow orchestration engine of
`scripts/python_ui/services/workflow_orchestrator.py`.

Steps of a workflow are modelled positionally: a step is identified by its
index in `Workflow.steps`, which matches Python object identity for the
step objects held by `workflow.steps`, `remaining_steps` and the planned
groups (all alias the same objects).  Status mutation on a step object is
modelled as updating the step at that index.  Wall-clock instants
(`datetime.now()`) are supplied externally as integers.  The external step
executor (`runner.run_fabric`) is a function parameter, and every call made
to it is recorded in an explicit call log.
-/

set_option maxHeartbeats 1000000

namespace Fabric

/-- `WorkflowStatus` enum of the source. -/
inductive WorkflowStatus where
  | pending
  | running
  | completed
  | failed
  | cancelled
deriving DecidableEq, Repr

/-- `RunResult` returned by the external step executor. -/
structure RunResult where
  success : Bool
  output : String
  error : Option String
  duration_ms : Int
  exit_code : Int
deriving DecidableEq, Repr

/-- `ExecutionConfig` dataclass (retry fields are reserved and unused). -/
structure ExecutionConfig where
  provider : Option String := none
  model : Option String := none
  timeout_s : Nat := 90
  max_retries : Nat := 1
  retry_delay_s : Nat := 0
  parallel_limit : Nat := 3
  continue_on_error : Bool := false
deriving DecidableEq, Repr

/-- `WorkflowStep` dataclass: definition fields plus the mutable execution
overlay (`status`, times, `result`, `error`). -/
structure WorkflowStep where
  id : String
  pattern : String
  condition : Option String := none
  parallel_group : Option String := none
  timeout : Nat := 90
  depends_on : List String := []
  -- the `variables` mapping of the source (renamed: `variables` is a Lean keyword)
  vars : List (String × String) := []
  status : WorkflowStatus := .pending
  start_time : Option Int := none
  end_time : Option Int := none
  result : Option RunResult := none
  error : Option String := none
deriving DecidableEq, Repr

/-- `Workflow` dataclass (the `results` dict is declared in the source but
never written by the orchestrator; kept for fidelity). -/
structure Workflow where
  id : String
  name : String
  steps : List WorkflowStep
  config : ExecutionConfig := {}
  status : WorkflowStatus := .pending
  start_time : Option Int := none
  end_time : Option Int := none
  current_step : Option String := none
  results : List (String × Option RunResult) := []
deriving DecidableEq, Repr

/-- Python truthiness of an `Optional[str]`: `None` and `""` are falsy. -/
def optStrTruthy : Option String → Bool
  | none => false
  | some s => !(s == "")

/-- `Workflow.get_step`: first step whose id matches, else `None`. -/
def getStep (steps : List WorkflowStep) (step_id : String) : Option WorkflowStep :=
  steps.find? (fun s => s.id == step_id)

/-- Index of the first step whose id matches (object identity of the step
`get_step` returns). -/
def getStepIdx (steps : List WorkflowStep) (step_id : String) : Option Nat :=
  steps.findIdx? (fun s => s.id == step_id)

/-- One dependency check of `_plan_execution_groups`:
`workflow.get_step(dep_id) and workflow.get_step(dep_id).status == COMPLETED`. -/
def depSatisfied (steps : List WorkflowStep) (dep_id : String) : Bool :=
  match getStep steps dep_id with
  | some s => s.status == .completed
  | none => false

/-- Readiness of one step during planning: no dependencies, or every
dependency satisfied. -/
def stepReady (steps : List WorkflowStep) (s : WorkflowStep) : Bool :=
  if s.depends_on.isEmpty then true
  else s.depends_on.all (fun dep_id => depSatisfied steps dep_id)

/-- Readiness of the step at index `i` (out-of-range indices never occur). -/
def readyAt (steps : List WorkflowStep) (i : Nat) : Bool :=
  match steps[i]? with
  | some s => stepReady steps s
  | none => false

/-- Mutate the status of the step object at index `i`. -/
def setStatusAt : List WorkflowStep → Nat → WorkflowStatus → List WorkflowStep
  | [], _, _ => []
  | s :: rest, 0, st => { s with status := st } :: rest
  | s :: rest, i+1, st => s :: setStatusAt rest i st

/-- Mark every ready step `COMPLETED` (the planner's scratch marking,
applied to the live step objects). -/
def markCompleted (steps : List WorkflowStep) (ready : List Nat) : List WorkflowStep :=
  ready.foldl (fun st i => setStatusAt st i .completed) steps

/-- `group_key = step.parallel_group or f"_sequential_\x7bstep.id\x7d"`. -/
def groupKey (s : WorkflowStep) : String :=
  match s.parallel_group with
  | some g => if g == "" then "_sequential_" ++ s.id else g
  | none => "_sequential_" ++ s.id

/-- Append `i` to the entry for key `k` of the insertion-ordered dict `acc`,
creating the entry at the end when absent (Python dict semantics). -/
def insertKeyed (acc : List (String × List Nat)) (k : String) (i : Nat) :
    List (String × List Nat) :=
  match acc with
  | [] => [(k, [i])]
  | (k0, l) :: rest =>
    if k0 == k then (k0, l ++ [i]) :: rest
    else (k0, l) :: insertKeyed rest k i

/-- `any(step.parallel_group for step in ready_steps)` (string truthiness). -/
def anyTagged (steps : List WorkflowStep) (ready : List Nat) : Bool :=
  ready.any (fun i =>
    match steps[i]? with
    | some s => optStrTruthy s.parallel_group
    | none => false)

/-- Partition the ready steps by group key, groups emitted in key discovery
order. -/
def partitionReady (steps : List WorkflowStep) (ready : List Nat) : List (List Nat) :=
  (ready.foldl (fun acc i =>
    match steps[i]? with
    | some s => insertKeyed acc (groupKey s) i
    | none => acc) []).map (fun kv => kv.2)

/-- Grouping of one planning round: partition by parallel group when any
ready step carries a (truthy) tag, otherwise one single group of all ready
steps. -/
def roundGroups (steps : List WorkflowStep) (ready : List Nat) : List (List Nat) :=
  if anyTagged steps ready then partitionReady steps ready else [ready]

/-- Each round either schedules at least one ready step or raises, so the
unready remainder shrinks. -/
theorem length_filter_not_lt {α : Type} (p : α → Bool) (l : List α)
    (h : ∃ x ∈ l, p x) : (l.filter (fun x => !(p x))).length < l.length := by
  induction l with
  | nil => rcases h with ⟨x, hx, _⟩; cases hx
  | cons a t ih =>
    by_cases hpa : p a = true
    · simp only [List.filter_cons, hpa, Bool.not_true, List.length_cons]
      exact Nat.lt_succ_of_le (List.length_filter_le _ t)
    · have hpa' : p a = false := by
        cases hq : p a
        · rfl
        · exact absurd hq hpa
      rcases h with ⟨x, hx, hpx⟩
      rcases List.mem_cons.mp hx with rfl | hxt
      · exact absurd hpx hpa
      · simp only [List.filter_cons, hpa', Bool.not_false, List.length_cons]
        exact Nat.succ_lt_succ (ih ⟨x, hxt, hpx⟩)

/-- The planning loop of `_plan_execution_groups` (lines 380-428): returns
the accumulated groups or the cycle error, together with the live step list
as mutated by the scratch `COMPLETED` marks.  The `while remaining_steps:`
loop removes at least one step per round or raises, so it runs at most
`remaining.length` rounds; `fuel` bounds the rounds structurally and every
caller passes `fuel ≥ remaining.length` (preserved by each round), making
the fuel-exhausted branch unreachable. -/
def planAux : Nat → List WorkflowStep → List Nat →
    Except String (List (List Nat)) × List WorkflowStep
  | 0, steps, remaining =>
    if remaining.isEmpty then (.ok [], steps)
    else (.error "Circular dependency detected in workflow", steps)
  | fuel2 + 1, steps, remaining =>
    if remaining.isEmpty then (.ok [], steps)
    else
      let ready := remaining.filter (readyAt steps)
      if ready.isEmpty then
        (.error "Circular dependency detected in workflow", steps)
      else
        let newGroups := roundGroups steps ready
        let steps2 := markCompleted steps ready
        let remaining2 := remaining.filter (fun i => !(readyAt steps i))
        let res := planAux fuel2 steps2 remaining2
        (res.1.map (fun gs => newGroups ++ gs), res.2)

/-- Reset every step of the workflow to `PENDING` (lines 430-432, run only
on the normal return path, not when the cycle error is raised). -/
def resetPending (steps : List WorkflowStep) : List WorkflowStep :=
  steps.map (fun s => { s with status := .pending })

/-- `_plan_execution_groups`: plan over all steps, then reset statuses on
the normal path.  The second component is the live step list on return. -/
def planExecutionGroups (w : Workflow) : Except String (List (List Nat)) × List WorkflowStep :=
  match planAux w.steps.length w.steps (List.range w.steps.length) with
  | (.ok groups, steps2) => (.ok groups, resetPending steps2)
  | (.error e, steps2) => (.error e, steps2)

/-- Insertion-ordered dict with Python assignment semantics: an existing key
keeps its position and gets the new value, a new key is appended. -/
def dictInsert {α : Type} (m : List (String × α)) (k : String) (v : α) :
    List (String × α) :=
  match m with
  | [] => [(k, v)]
  | (k0, v0) :: rest =>
    if k0 == k then (k0, v) :: rest else (k0, v0) :: dictInsert rest k v

/-- `m.get(k)` returning `None` when absent. -/
def dictGet {α : Type} (m : List (String × α)) (k : String) : Option α :=
  (m.find? (fun kv => kv.1 == k)).map (fun kv => kv.2)

/-- `m.get(k, d)`. -/
def dictGetD {α : Type} (m : List (String × α)) (k : String) (d : α) : α :=
  (dictGet m k).getD d

/-- `_resolve_step_input`: no dependencies → the `"_initial"` entry; one
dependency → its output with the initial input as fallback; several →
available outputs concatenated in `depends_on` order joined by
`"\n\n---\n\n"`, falling back to the initial input when none is available. -/
def resolveStepInput (step : WorkflowStep) (step_outputs : List (String × String)) :
    String :=
  match step.depends_on with
  | [] => dictGetD step_outputs "_initial" ""
  | [dep_id] => dictGetD step_outputs dep_id (dictGetD step_outputs "_initial" "")
  | _ =>
    let inputs := step.depends_on.filterMap (fun dep_id => dictGet step_outputs dep_id)
    if inputs.isEmpty then dictGetD step_outputs "_initial" ""
    else String.intercalate "\n\n---\n\n" inputs

/-- The external step executor `runner.run_fabric`, abstracted: arguments
are pattern, input text, provider, model, timeout. -/
def Executor := String → String → Option String → Option String → Nat → RunResult

/-- Record of one call made to the external step executor. -/
structure CallRec where
  pattern : String
  input_text : String
  provider : Option String
  model : Option String
  timeout_s : Nat
deriving DecidableEq, Repr

/-- State produced by `_execute_step_group`: the results dict, the live step
list (running marks applied), the shared `step_outputs` dict, and the calls
made to the executor. -/
structure GroupOutcome where
  results : List (String × RunResult)
  steps : List WorkflowStep
  outputs : List (String × String)
  calls : List CallRec
deriving DecidableEq, Repr

/-- Parallel-branch dispatch of `_execute_step_group` (lines 480-515): every
step resolves its input against the group's incoming outputs, is marked
`RUNNING` and dispatched; `step_outputs` is not updated here.  Completion
order of the pool is unspecified in the source and modelled as submission
order. -/
def parDispatch (executor : Executor) (cfg : ExecutionConfig) (gsteps : List Nat)
    (steps : List WorkflowStep) (outputs : List (String × String)) : GroupOutcome :=
  gsteps.foldl (fun acc i =>
    match acc.steps[i]? with
    | none => acc
    | some s =>
      let input := resolveStepInput s outputs
      let r := executor s.pattern input cfg.provider cfg.model s.timeout
      { results := dictInsert acc.results s.id r,
        steps := setStatusAt acc.steps i .running,
        outputs := acc.outputs,
        calls := acc.calls ++ [⟨s.pattern, input, cfg.provider, cfg.model, s.timeout⟩] })
    ⟨[], steps, outputs, []⟩

/-- Sequential-branch dispatch of `_execute_step_group` (lines 517-536):
steps run one at a time and a success updates `step_outputs` before the next
step of the same group resolves its input. -/
def seqDispatch (executor : Executor) (cfg : ExecutionConfig) (gsteps : List Nat)
    (steps : List WorkflowStep) (outputs : List (String × String)) : GroupOutcome :=
  gsteps.foldl (fun acc i =>
    match acc.steps[i]? with
    | none => acc
    | some s =>
      let input := resolveStepInput s acc.outputs
      let r := executor s.pattern input cfg.provider cfg.model s.timeout
      { results := dictInsert acc.results s.id r,
        steps := setStatusAt acc.steps i .running,
        outputs := if r.success then dictInsert acc.outputs s.id r.output else acc.outputs,
        calls := acc.calls ++ [⟨s.pattern, input, cfg.provider, cfg.model, s.timeout⟩] })
    ⟨[], steps, outputs, []⟩

/-- `_execute_step_group`: a singleton group dispatches directly; otherwise
the group runs in the bounded pool only when all members share one non-null
parallel tag and the group fits `parallel_limit`, else sequentially. -/
def execStepGroup (executor : Executor) (cfg : ExecutionConfig) (gsteps : List Nat)
    (steps : List WorkflowStep) (outputs : List (String × String)) : GroupOutcome :=
  match gsteps with
  | [i] =>
    match steps[i]? with
    | none => ⟨[], steps, outputs, []⟩
    | some s =>
      let input := resolveStepInput s outputs
      let r := executor s.pattern input cfg.provider cfg.model s.timeout
      ⟨[(s.id, r)], setStatusAt steps i .running, outputs,
        [⟨s.pattern, input, cfg.provider, cfg.model, s.timeout⟩]⟩
  | _ =>
    let pgs := gsteps.filterMap (fun i => (steps[i]?).map (fun s => s.parallel_group))
    let can_parallel :=
      match pgs with
      | [] => false
      | pg0 :: rest => rest.all (fun p => p == pg0) && pg0.isSome
    if can_parallel && gsteps.length ≤ cfg.parallel_limit then
      parDispatch executor cfg gsteps steps outputs
    else
      seqDispatch executor cfg gsteps steps outputs

/-- Mutate the first step object whose id matches (`get_step` aliasing). -/
def modifyById : List WorkflowStep → String → (WorkflowStep → WorkflowStep) →
    List WorkflowStep
  | [], _, _ => []
  | s :: rest, sid, f =>
    if s.id == sid then f s :: rest else s :: modifyById rest sid f

/-- Python `str` of an `Optional[str]` inside an f-string. -/
def pyOptStr : Option String → String
  | some s => s
  | none => "None"

/-- Result application loop of `execute_workflow` (lines 307-322): record
each result on its step, mark `COMPLETED`/`FAILED`, publish successful
outputs, and — when `continue_on_error` is false — raise on the first
failure, leaving the remaining results of the group unapplied. -/
def applyGroupResults (coe : Bool) :
    List (String × RunResult) → List WorkflowStep → List (String × String) →
    Except String Unit × List WorkflowStep × List (String × String)
  | [], steps, outputs => (.ok (), steps, outputs)
  | (step_id, r) :: rest, steps, outputs =>
    match getStep steps step_id with
    | none => applyGroupResults coe rest steps outputs
    | some _ =>
      if r.success then
        let steps2 := modifyById steps step_id
          (fun s => { s with result := some r, status := .completed })
        applyGroupResults coe rest steps2 (dictInsert outputs step_id r.output)
      else
        let steps2 := modifyById steps step_id
          (fun s => { s with result := some r, status := .failed, error := r.error })
        if coe then applyGroupResults coe rest steps2 outputs
        else (.error (s!"Step {step_id} failed: {pyOptStr r.error}"), steps2, outputs)

/-- The group loop of `execute_workflow` (lines 298-322).  Also returns the
call log and the number of groups dispatched. -/
def runGroups (executor : Executor) (cfg : ExecutionConfig) :
    List (List Nat) → List WorkflowStep → List (String × String) →
    List CallRec → Nat →
    Except String Unit × List WorkflowStep × List (String × String) × List CallRec × Nat
  | [], steps, outputs, calls, k => (.ok (), steps, outputs, calls, k)
  | g :: gs, steps, outputs, calls, k =>
    let go := execStepGroup executor cfg g steps outputs
    let app := applyGroupResults cfg.continue_on_error go.results go.steps go.outputs
    match app.1 with
    | .error e => (.error e, app.2.1, app.2.2, calls ++ go.calls, k + 1)
    | .ok _ => runGroups executor cfg gs app.2.1 app.2.2 (calls ++ go.calls) (k + 1)

/-- `get_steps_by_status`. -/
def stepsByStatus (steps : List WorkflowStep) (st : WorkflowStatus) : List WorkflowStep :=
  steps.filter (fun s => s.status == st)

/-- Final-output determination of `execute_workflow` (lines 329-336): scan
the steps last to first and take the output of the first with status
`COMPLETED` and a (truthy) recorded result. -/
def finalOutputScan (steps : List WorkflowStep) : Option String :=
  if steps.isEmpty then none
  else
    match steps.reverse.find? (fun s => s.status == .completed && s.result.isSome) with
    | some s => s.result.map (fun r => r.output)
    | none => none

/-- `\x7bstep.id: step.result for step in workflow.steps\x7d`. -/
def stepResultsDict (steps : List WorkflowStep) : List (String × Option RunResult) :=
  steps.foldl (fun m s => dictInsert m s.id s.result) []

/-- Aggregate result dict returned by `execute_workflow` (metadata
flattened into fields). -/
structure ExecResult where
  workflow_id : String
  success : Bool
  final_output : Option String
  error : Option String := none
  step_results : List (String × Option RunResult)
  execution_time : Int
  total_steps : Nat
  successful_steps : Nat
  failed_steps : Nat
deriving DecidableEq, Repr

/-- `execute_workflow`: plan, run the groups, and build the aggregate
result.  `t0`/`t1` are the externally supplied start/end wall-clock
instants (per-step start/end stamps are not tracked; no modelled behavior
reads them).  Returns the result, the final workflow state, the executor
call log, and the number of groups dispatched. -/
def executeWorkflow (executor : Executor) (w : Workflow) (input_text : String)
    (t0 t1 : Int) : ExecResult × Workflow × List CallRec × Nat :=
  let w1 := { w with status := WorkflowStatus.running, start_time := some t0 }
  match planExecutionGroups w1 with
  | (.error e, stepsP) =>
    let w2 := { w1 with
      steps := stepsP
      status := WorkflowStatus.failed
      end_time := some t1 }
    (⟨w.id, false, none, some e, stepResultsDict stepsP, t1 - t0, stepsP.length,
      (stepsByStatus stepsP .completed).length, (stepsByStatus stepsP .failed).length⟩,
     w2, [], 0)
  | (.ok groups, stepsP) =>
    let outputs0 : List (String × String) := [("_initial", input_text)]
    let run := runGroups executor w.config groups stepsP outputs0 [] 0
    let stepsF := run.2.1
    let calls := run.2.2.2.1
    let k := run.2.2.2.2
    match run.1 with
    | .error e =>
      let w2 := { w1 with
        steps := stepsF
        status := WorkflowStatus.failed
        end_time := some t1 }
      (⟨w.id, false, none, some e, stepResultsDict stepsF, t1 - t0, stepsF.length,
        (stepsByStatus stepsF .completed).length, (stepsByStatus stepsF .failed).length⟩,
       w2, calls, k)
    | .ok _ =>
      let w2 := { w1 with
        steps := stepsF
        status := WorkflowStatus.completed
        end_time := some t1 }
      (⟨w.id, true, finalOutputScan stepsF, none, stepResultsDict stepsF, t1 - t0,
        stepsF.length, (stepsByStatus stepsF .completed).length,
        (stepsByStatus stepsF .failed).length⟩,
       w2, calls, k)

/-- The orchestrator's live-workflow table `_active_workflows`. -/
abbrev Registry := List (String × Workflow)

/-- `create_custom_workflow`: validate that every `depends_on` target exists
in the given step list (first offender raises), then register.  The fresh
uuid is supplied as `workflow_id`. -/
def createCustomWorkflow (reg : Registry) (workflow_id name : String)
    (steps : List WorkflowStep) (config : ExecutionConfig) :
    Except String Workflow × Registry :=
  let step_ids := steps.map (fun s => s.id)
  match steps.findSome? (fun s =>
      (s.depends_on.find? (fun dep_id => !(step_ids.contains dep_id))).map
        (fun dep_id => (s.id, dep_id))) with
  | some sd => (.error (s!"Step {sd.1} depends on non-existent step {sd.2}"), reg)
  | none =>
    let w : Workflow := { id := workflow_id, name := name, steps := steps,
                          config := config }
    (.ok w, dictInsert reg workflow_id w)

/-- Terminal statuses checked by `cleanup_completed_workflows`. -/
def isTerminal (st : WorkflowStatus) : Bool :=
  st == .completed || st == .failed || st == .cancelled

/-- Removal condition of `cleanup_completed_workflows`: terminal status and
an end time strictly older than the cutoff. -/
def shouldClean (w : Workflow) (cutoff : Int) : Bool :=
  isTerminal w.status &&
    (match w.end_time with
     | some t => decide (t < cutoff)
     | none => false)

/-- `cleanup_completed_workflows`: remove every terminal workflow whose end
time is older than `now - max_age_hours` and return the count removed.
Instants are modelled in hours. -/
def cleanupCompletedWorkflows (reg : Registry) (now : Int) (max_age_hours : Int) :
    Registry × Nat :=
  let cutoff := now - max_age_hours
  let toRemove := (reg.filter (fun kv => shouldClean kv.2 cutoff)).map (fun kv => kv.1)
  (reg.filter (fun kv => !(shouldClean kv.2 cutoff)), toRemove.length)

/-! ## Spec-side definitions

Definitions in this section follow the words of the specification, for
comparison with the definitions above, which are translated from the
source. -/

/-- Spec-side: a list of texts joined by the fixed separator
`"\n\n---\n\n"` (concatenation in the order given). -/
def specJoinSep : List String → String
  | [] => ""
  | x :: rest => rest.foldl (fun acc b => acc ++ "\n\n---\n\n" ++ b) x

/-- Spec-side multi-dependency input resolution: the available outputs of
the dependencies, taken in `depends_on` declaration order (dependencies
with no available output are skipped), joined by the separator; when no
dependency produced output, the workflow's initial input text (the
`"_initial"` entry). -/
def specMultiInput (step : WorkflowStep) (outs : List (String × String)) : String :=
  let avail := step.depends_on.filterMap (fun d => dictGet outs d)
  if avail = [] then dictGetD outs "_initial" "" else specJoinSep avail

/-- Spec-side terminal workflow status (`Completed`, `Failed` or
`Cancelled`). -/
def TerminalStatus (st : WorkflowStatus) : Prop :=
  st = .completed ∨ st = .failed ∨ st = .cancelled

/-- Spec-side removal condition of `cleanup`: terminal status and an end
time older than the maximum age. -/
def SpecRemoved (w : Workflow) (now max_age : Int) : Prop :=
  TerminalStatus w.status ∧ ∃ t, w.end_time = some t ∧ t < now - max_age

/-- Spec-side final-output rule: the output of the first step with status
`Completed` found scanning the steps in declaration order from the last to
the first (`None` when no step is `Completed`). -/
def specFinalOutput (steps : List WorkflowStep) : Option String :=
  ((steps.reverse.find? (fun s => s.status == .completed)).bind
    (fun s => s.result)).map (fun r => r.output)

/-! ## Helper lemmas -/

theorem intercalate_go_foldl (s : String) (l : List String) (acc : String) :
    String.intercalate.go acc s l = l.foldl (fun a b => a ++ s ++ b) acc := by
  induction l generalizing acc with
  | nil => rfl
  | cons a as ih => simp only [String.intercalate.go, List.foldl_cons, ih]

theorem intercalate_eq_specJoinSep (l : List String) (h : l ≠ []) :
    String.intercalate "\n\n---\n\n" l = specJoinSep l := by
  match l with
  | [] => exact absurd rfl h
  | x :: rest =>
    show String.intercalate.go x "\n\n---\n\n" rest = _
    rw [intercalate_go_foldl]
    rfl

theorem shouldClean_iff (w : Workflow) (cutoff : Int) :
    shouldClean w cutoff = true ↔
      (TerminalStatus w.status ∧ ∃ t, w.end_time = some t ∧ t < cutoff) := by
  unfold shouldClean isTerminal TerminalStatus
  rcases he : w.end_time with _ | t
  · simp [he]
  · cases hs : w.status <;> simp [hs, he]

/-- A step with its status field normalized to `Pending`.  Two steps with
equal `stripStatus` differ at most in their status: used to state that
planning mutates nothing but statuses. -/
def stripStatus (s : WorkflowStep) : WorkflowStep := { s with status := .pending }

theorem stripStatus_of_pending (s : WorkflowStep) (h : s.status = .pending) :
    stripStatus s = s := by
  cases s
  simp only [stripStatus]
  simp_all

theorem map_stripStatus_id (l : List WorkflowStep)
    (h : ∀ s ∈ l, s.status = .pending) : l.map stripStatus = l := by
  induction l with
  | nil => rfl
  | cons a t ih =>
    rw [List.map_cons, stripStatus_of_pending a (h a (by simp)),
      ih (fun s hs => h s (by simp [hs]))]

theorem setStatusAt_map_strip (l : List WorkflowStep) (i : Nat)
    (st : WorkflowStatus) :
    (setStatusAt l i st).map stripStatus = l.map stripStatus := by
  induction l generalizing i with
  | nil => rfl
  | cons a t ih =>
    cases i with
    | zero => cases a; simp [setStatusAt, stripStatus]
    | succ j => simp only [setStatusAt, List.map_cons, ih]

theorem markCompleted_map_strip (ready : List Nat) (l : List WorkflowStep) :
    (markCompleted l ready).map stripStatus = l.map stripStatus := by
  induction ready generalizing l with
  | nil => rfl
  | cons i t ih =>
    show (markCompleted (setStatusAt l i .completed) t).map stripStatus = _
    rw [ih, setStatusAt_map_strip]

theorem planAux_map_strip (fuel : Nat) (steps : List WorkflowStep)
    (remaining : List Nat) :
    (planAux fuel steps remaining).2.map stripStatus = steps.map stripStatus := by
  induction fuel generalizing steps remaining with
  | zero =>
    rw [planAux]
    by_cases h1 : remaining.isEmpty
    · rw [if_pos h1]
    · rw [if_neg h1]
  | succ f ih =>
    rw [planAux]
    by_cases h1 : remaining.isEmpty
    · rw [if_pos h1]
    · rw [if_neg h1]
      by_cases h2 : (remaining.filter (readyAt steps)).isEmpty
      · rw [if_pos h2]
      · rw [if_neg h2]
        rw [ih, markCompleted_map_strip]

theorem resetPending_eq_map (l : List WorkflowStep) :
    resetPending l = l.map stripStatus := rfl

/-! ## Claim theorems -/

/-- A step already marked `Completed` before any planning. -/
def preCompletedStep : WorkflowStep :=
  { id := "a", pattern := "p", status := WorkflowStatus.completed }

/-- C6 counterexample: planning a workflow whose single dependency-free
step is already `Completed` returns with that step reset to `Pending` — a
visible change of live step status, so planning is not side-effect-free for
every prior status assignment. -/
theorem plan_side_effect_counterexample :
    ((planExecutionGroups { id := "w", name := "w", steps := [preCompletedStep] }).2.map
      (fun s => s.status)) = [WorkflowStatus.pending] ∧
    [preCompletedStep].map (fun s => s.status) = [WorkflowStatus.completed] :=
  ⟨rfl, rfl⟩

/-- C6 (amended): planning mutates nothing but step statuses, and on the
normal (cycle-error-free) return path every step comes back `Pending`;
hence from the all-`Pending` state in which `execute_workflow` invokes it,
successful planning leaves live step state unchanged.  (On the cycle-error
path the scratch `Completed` marks of earlier rounds remain visible, and a
step that was not `Pending` beforehand is visibly reset.) -/
theorem plan_state_effects (w : Workflow) :
    ((planExecutionGroups w).2.map stripStatus = w.steps.map stripStatus) ∧
    (∀ groups, (planExecutionGroups w).1 = .ok groups →
      ∀ s ∈ (planExecutionGroups w).2, s.status = .pending) ∧
    ((∀ s ∈ w.steps, s.status = .pending) →
      ∀ groups, (planExecutionGroups w).1 = .ok groups →
        (planExecutionGroups w).2 = w.steps) := by
  have hstrip := planAux_map_strip w.steps.length w.steps (List.range w.steps.length)
  rcases hp : planAux w.steps.length w.steps (List.range w.steps.length) with ⟨r, steps2⟩
  rw [hp] at hstrip
  cases r with
  | ok groups =>
    have hpe : planExecutionGroups w = (.ok groups, resetPending steps2) := by
      rw [planExecutionGroups, hp]
    refine ⟨?_, ?_, ?_⟩
    · rw [hpe, resetPending_eq_map, List.map_map]
      have hco : stripStatus ∘ stripStatus = stripStatus := funext (fun s => rfl)
      rw [hco]
      exact hstrip
    · intro groups2 _ s hs
      rw [hpe, resetPending_eq_map] at hs
      rcases List.mem_map.mp hs with ⟨x, _, rfl⟩
      rfl
    · intro hpend groups2 _
      rw [hpe]
      show resetPending steps2 = w.steps
      rw [resetPending_eq_map, hstrip, map_stripStatus_id _ hpend]
  | error e =>
    have hpe : planExecutionGroups w = (.error e, steps2) := by
      rw [planExecutionGroups, hp]
    refine ⟨?_, ?_, ?_⟩
    · rw [hpe]
      exact hstrip
    · intro groups2 hg
      rw [hpe] at hg
      exact Except.noConfusion hg
    · intro _ groups2 hg
      rw [hpe] at hg
      exact Except.noConfusion hg

/-- C6 witness for the amended theorem: a concrete all-`Pending` workflow
whose plan succeeds and whose live step state is unchanged on return. -/
theorem plan_state_effects_witness :
    (planExecutionGroups { id := "w", name := "w", steps := [{ id := "a", pattern := "p" }] }).2 =
      [{ id := "a", pattern := "p" }] :=
  (plan_state_effects _).2.2 (by decide) [[0]] rfl

/-- C5: for every step with two or more dependencies, the resolved input is
the concatenation of the available outputs of its dependencies in
`depends_on` declaration order joined by `"\n\n---\n\n"`, dependencies with
no available output being skipped, and equals the initial input text when
no dependency produced output. -/
theorem resolve_step_input_multi (step : WorkflowStep)
    (outs : List (String × String)) (h : 2 ≤ step.depends_on.length) :
    resolveStepInput step outs = specMultiInput step outs := by
  rcases hd : step.depends_on with _ | ⟨d1, _ | ⟨d2, rest⟩⟩
  · rw [hd] at h; simp at h
  · rw [hd] at h; simp at h
  · simp only [resolveStepInput, specMultiInput, hd]
    by_cases hin : (d1 :: d2 :: rest).filterMap (fun dep_id => dictGet outs dep_id) = []
    · simp [hin]
    · rw [if_neg (fun hcon => hin (List.isEmpty_iff.mp hcon)), if_neg hin]
      exact intercalate_eq_specJoinSep _ hin

/-- C5 witness: a step depending on `[x, y]` with completed outputs `"A"`
and `"B"` resolves to exactly `"A\n\n---\n\nB"`. -/
theorem resolve_step_input_multi_witness :
    resolveStepInput { id := "c", pattern := "p", depends_on := ["x", "y"] }
        [("_initial", "I"), ("x", "A"), ("y", "B")] =
      specMultiInput { id := "c", pattern := "p", depends_on := ["x", "y"] }
        [("_initial", "I"), ("x", "A"), ("y", "B")] ∧
    resolveStepInput { id := "c", pattern := "p", depends_on := ["x", "y"] }
        [("_initial", "I"), ("x", "A"), ("y", "B")] = "A\n\n---\n\nB" ∧
    resolveStepInput { id := "c", pattern := "p", depends_on := ["x", "y"] }
        [("_initial", "I")] = "I" :=
  ⟨resolve_step_input_multi _ _ (by decide), by decide, by decide⟩

/-- Group key of the step at index `i` (the key `_plan_execution_groups`
partitions a tagged round by). -/
def keyAt (steps : List WorkflowStep) (i : Nat) : String :=
  match steps[i]? with
  | some s => groupKey s
  | none => ""

/-- Truthy parallel tag of the step at index `i`. -/
def taggedAt (steps : List WorkflowStep) (i : Nat) : Bool :=
  match steps[i]? with
  | some s => optStrTruthy s.parallel_group
  | none => false

theorem insertKeyed_flatten_perm (acc : List (String × List Nat)) (k : String)
    (i : Nat) :
    ((insertKeyed acc k i).map (fun kv => kv.2)).flatten.Perm
      (i :: (acc.map (fun kv => kv.2)).flatten) := by
  induction acc with
  | nil => exact List.Perm.refl _
  | cons kv rest ih =>
    rcases kv with ⟨k0, l⟩
    by_cases hk : (k0 == k) = true
    · simp only [insertKeyed, hk, if_true, List.map_cons, List.flatten_cons]
      rw [List.append_assoc]
      exact List.perm_middle
    · simp only [insertKeyed, hk, if_false, Bool.false_eq_true, List.map_cons,
        List.flatten_cons]
      exact (List.Perm.append_left l ih).trans List.perm_middle

theorem partition_foldl_flatten_perm (steps : List WorkflowStep) :
    ∀ (ready : List Nat) (acc : List (String × List Nat)),
      (∀ i ∈ ready, i < steps.length) →
      (((ready.foldl (fun acc i =>
          match steps[i]? with
          | some s => insertKeyed acc (groupKey s) i
          | none => acc) acc).map (fun kv => kv.2)).flatten).Perm
        ((acc.map (fun kv => kv.2)).flatten ++ ready) := by
  intro ready
  induction ready with
  | nil =>
    intro acc _
    rw [List.append_nil]
    exact List.Perm.refl _
  | cons i t ih =>
    intro acc hvalid
    have hi : i < steps.length := hvalid i (by simp)
    rcases hsome : steps[i]? with _ | s
    · rw [List.getElem?_eq_none_iff] at hsome
      omega
    · simp only [List.foldl_cons, hsome]
      have h1 := ih (insertKeyed acc (groupKey s) i)
        (fun j hj => hvalid j (by simp [hj]))
      have h2 := insertKeyed_flatten_perm acc (groupKey s) i
      exact h1.trans ((List.Perm.append_right t h2).trans List.perm_middle.symm)

theorem insertKeyed_homogeneous (steps : List WorkflowStep)
    (acc : List (String × List Nat)) (k : String) (i : Nat)
    (hacc : ∀ kv ∈ acc, ∀ j ∈ kv.2, keyAt steps j = kv.1)
    (hik : keyAt steps i = k) :
    ∀ kv ∈ insertKeyed acc k i, ∀ j ∈ kv.2, keyAt steps j = kv.1 := by
  induction acc with
  | nil =>
    intro kv hkv j hj
    simp only [insertKeyed, List.mem_singleton] at hkv
    subst hkv
    simp only [List.mem_singleton] at hj
    subst hj
    exact hik
  | cons kv0 rest ih =>
    rcases kv0 with ⟨k0, l⟩
    by_cases hk : (k0 == k) = true
    · simp only [insertKeyed, hk, if_true]
      intro kv hkv j hj
      rcases List.mem_cons.mp hkv with rfl | hrest
      · rcases List.mem_append.mp hj with hjl | hji
        · exact hacc (k0, l) (by simp) j hjl
        · simp only [List.mem_singleton] at hji
          subst hji
          rw [hik]
          exact (beq_iff_eq.mp hk).symm
      · exact hacc kv (List.mem_cons_of_mem _ hrest) j hj
    · simp only [insertKeyed, hk, if_false, Bool.false_eq_true]
      intro kv hkv j hj
      rcases List.mem_cons.mp hkv with rfl | hrest
      · exact hacc (k0, l) (by simp) j hj
      · exact ih (fun kv2 h2 => hacc kv2 (List.mem_cons_of_mem _ h2)) kv hrest j hj

theorem partition_foldl_homogeneous (steps : List WorkflowStep) :
    ∀ (ready : List Nat) (acc : List (String × List Nat)),
      (∀ kv ∈ acc, ∀ j ∈ kv.2, keyAt steps j = kv.1) →
      ∀ kv ∈ (ready.foldl (fun acc i =>
          match steps[i]? with
          | some s => insertKeyed acc (groupKey s) i
          | none => acc) acc), ∀ j ∈ kv.2, keyAt steps j = kv.1 := by
  intro ready
  induction ready with
  | nil => intro acc hacc; exact hacc
  | cons i t ih =>
    intro acc hacc
    rcases hsome : steps[i]? with _ | s
    · simp only [List.foldl_cons, hsome]
      exact ih acc hacc
    · simp only [List.foldl_cons, hsome]
      refine ih _ (insertKeyed_homogeneous steps acc (groupKey s) i hacc ?_)
      simp [keyAt, hsome]

theorem eq_singleton_of_nodup_all_eq {α : Type} (g : List α) (i : α)
    (hi : i ∈ g) (hall : ∀ j ∈ g, j = i) (hnd : g.Nodup) : g = [i] := by
  match g with
  | [] => cases hi
  | [x] => rw [hall x (by simp)]
  | x :: y :: tl =>
    exfalso
    have hx := hall x (by simp)
    have hy := hall y (by simp)
    subst hx
    exact (List.nodup_cons.mp hnd).1 (by simp [hy])

theorem setStatusAt_getElem_ne (l : List WorkflowStep) (m : Nat)
    (st : WorkflowStatus) : ∀ (i : Nat), i ≠ m → (setStatusAt l m st)[i]? = l[i]? := by
  induction l generalizing m with
  | nil => intro i _; rfl
  | cons a t ih =>
    intro i hne
    cases m with
    | zero =>
      cases i with
      | zero => exact absurd rfl hne
      | succ i2 =>
        show ({ a with status := st } :: t)[i2 + 1]? = (a :: t)[i2 + 1]?
        rw [List.getElem?_cons_succ, List.getElem?_cons_succ]
    | succ m2 =>
      cases i with
      | zero =>
        show (a :: setStatusAt t m2 st)[0]? = (a :: t)[0]?
        rw [List.getElem?_cons_zero, List.getElem?_cons_zero]
      | succ i2 =>
        show (a :: setStatusAt t m2 st)[i2 + 1]? = (a :: t)[i2 + 1]?
        rw [List.getElem?_cons_succ, List.getElem?_cons_succ]
        exact ih m2 i2 (fun h => hne (by rw [h]))

theorem markCompleted_getElem_notin (ready : List Nat) :
    ∀ (l : List WorkflowStep) (i : Nat), i ∉ ready →
      (markCompleted l ready)[i]? = l[i]? := by
  induction ready with
  | nil => intro l i _; rfl
  | cons m t ih =>
    intro l i hni
    show (markCompleted (setStatusAt l m .completed) t)[i]? = l[i]?
    rw [ih _ i (fun h => hni (List.mem_cons_of_mem _ h)),
      setStatusAt_getElem_ne l m _ i (fun h => hni (by simp [h]))]

theorem map_strip_id_eq (l1 l2 : List WorkflowStep)
    (h : l1.map stripStatus = l2.map stripStatus) :
    l1.map (fun s => s.id) = l2.map (fun s => s.id) := by
  have h2 : (l1.map stripStatus).map (fun s => s.id) =
      (l2.map stripStatus).map (fun s => s.id) := by rw [h]
  simpa [List.map_map, Function.comp] using h2

theorem getStep_none_of_ids_eq (l1 l2 : List WorkflowStep) (d : String)
    (h : l1.map (fun s => s.id) = l2.map (fun s => s.id))
    (hn : getStep l2 d = none) : getStep l1 d = none := by
  rw [getStep, List.find?_eq_none]
  rw [getStep, List.find?_eq_none] at hn
  intro x hx
  have : x.id ∈ l2.map (fun s => s.id) := by
    rw [← h]
    exact List.mem_map.mpr ⟨x, hx, rfl⟩
  rcases List.mem_map.mp this with ⟨y, hy, hxy⟩
  have h3 := hn y hy
  rw [hxy] at h3
  exact h3

theorem getStepIdx_eq_of_ids_eq (d : String) (l1 l2 : List WorkflowStep)
    (h : l1.map (fun s => s.id) = l2.map (fun s => s.id)) :
    getStepIdx l1 d = getStepIdx l2 d := by
  have e1 : getStepIdx l1 d =
      List.findIdx? (fun x => x == d) (l1.map (fun s => s.id)) := by
    rw [List.findIdx?_map]
    rfl
  have e2 : getStepIdx l2 d =
      List.findIdx? (fun x => x == d) (l2.map (fun s => s.id)) := by
    rw [List.findIdx?_map]
    rfl
  rw [e1, e2, h]

theorem getStep_of_getStepIdx (d : String) :
    ∀ (l : List WorkflowStep) (j : Nat), getStepIdx l d = some j →
      ∃ sj, l[j]? = some sj ∧ getStep l d = some sj := by
  intro l
  induction l with
  | nil => intro j h; exact absurd h (by simp [getStepIdx])
  | cons a t ih =>
    intro j h
    rw [getStepIdx, List.findIdx?_cons] at h
    by_cases ha : (a.id == d) = true
    · rw [if_pos ha] at h
      cases h
      exact ⟨a, List.getElem?_cons_zero, by
        rw [getStep]
        exact @List.find?_cons_of_pos _ (fun s => s.id == d) a t ha⟩
    · rw [if_neg ha, List.findIdx?_succ, Option.map_eq_some'] at h
      rcases h with ⟨j2, hj2, rfl⟩
      rcases ih j2 (by rw [getStepIdx]; exact hj2) with ⟨sj, hsj, hfind⟩
      refine ⟨sj, by rw [List.getElem?_cons_succ]; exact hsj, ?_⟩
      rw [getStep]
      rw [@List.find?_cons_of_neg _ (fun s => s.id == d) a t ha]
      rw [getStep] at hfind
      exact hfind

/-- Readiness is refuted by any dependency whose resolved step is not
`Completed`. -/
theorem readyAt_false_of_dep (steps : List WorkflowStep) (i : Nat)
    (s : WorkflowStep) (hs : steps[i]? = some s) (d : String)
    (hd : d ∈ s.depends_on) (hns : depSatisfied steps d = false) :
    readyAt steps i = false := by
  simp only [readyAt, hs]
  unfold stepReady
  have hne : s.depends_on.isEmpty = false := by
    cases hdep : s.depends_on with
    | nil => rw [hdep] at hd; cases hd
    | cons a t => rfl
  rw [hne]
  simp only [Bool.false_eq_true, if_false]
  cases hall : s.depends_on.all (fun dep_id => depSatisfied steps dep_id) with
  | false => rfl
  | true =>
    have h2 := List.all_eq_true.mp hall d hd
    rw [hns] at h2
    exact Bool.noConfusion h2

/-- The step at index `i` names a dependency that matches no step of the
workflow. -/
def DanglingAt (steps : List WorkflowStep) (i : Nat) : Prop :=
  ∃ s, steps[i]? = some s ∧ ∃ d ∈ s.depends_on, getStep steps d = none

theorem isEmpty_false_of_mem {α : Type} {l : List α} {a : α} (h : a ∈ l) :
    l.isEmpty = false := by
  cases hl : l with
  | nil => rw [hl] at h; cases h
  | cons x t => rfl

/-- A step with a dangling dependency is never ready, so planning always
ends in the cycle error. -/
theorem planAux_error_of_dangling :
    ∀ (fuel : Nat) (steps : List WorkflowStep) (remaining : List Nat) (i : Nat),
      i ∈ remaining → DanglingAt steps i →
      (planAux fuel steps remaining).1 =
        .error "Circular dependency detected in workflow" := by
  intro fuel
  induction fuel with
  | zero =>
    intro steps remaining i hmem _
    rw [planAux, isEmpty_false_of_mem hmem]
    rfl
  | succ f ih =>
    intro steps remaining i hmem hdang
    rw [planAux, isEmpty_false_of_mem hmem]
    simp only [Bool.false_eq_true, if_false]
    rcases hdang with ⟨s, hs, d, hd, hnone⟩
    have hnr : readyAt steps i = false := by
      apply readyAt_false_of_dep steps i s hs d hd
      simp only [depSatisfied, hnone]
    by_cases hready : (remaining.filter (readyAt steps)).isEmpty
    · rw [if_pos hready]
    · rw [if_neg hready]
      have hmem2 : i ∈ remaining.filter (fun j => !(readyAt steps j)) :=
        List.mem_filter.mpr ⟨hmem, by rw [hnr]; rfl⟩
      have hdang2 : DanglingAt
          (markCompleted steps (remaining.filter (readyAt steps))) i := by
        refine ⟨s, ?_, d, hd, ?_⟩
        · rw [markCompleted_getElem_notin _ _ i ?_]
          · exact hs
          · intro hin
            have h2 := List.of_mem_filter hin
            rw [hnr] at h2
            exact Bool.noConfusion h2
        · apply getStep_none_of_ids_eq _ steps d ?_ hnone
          exact map_strip_id_eq _ _ (markCompleted_map_strip _ _)
      have hrec := ih (markCompleted steps (remaining.filter (readyAt steps)))
        (remaining.filter (fun j => !(readyAt steps j))) i hmem2 hdang2
      simp only [hrec]
      rfl

theorem planExecutionGroups_error (w : Workflow) (e : String)
    (h : (planAux w.steps.length w.steps (List.range w.steps.length)).1 = .error e) :
    (planExecutionGroups w).1 = .error e := by
  rcases hp : planAux w.steps.length w.steps (List.range w.steps.length) with ⟨r, steps2⟩
  rw [hp] at h
  simp only at h
  subst h
  rw [planExecutionGroups, hp]

theorem planExecutionGroups_ok (w : Workflow) (groups : List (List Nat))
    (steps2 : List WorkflowStep)
    (h : planAux w.steps.length w.steps (List.range w.steps.length) =
      (.ok groups, steps2)) :
    planExecutionGroups w = (.ok groups, resetPending steps2) := by
  rw [planExecutionGroups, h]

/-- `execute_workflow` when planning raises: the workflow is failed with
the planning error, no executor call is made, and no group is dispatched. -/
theorem executeWorkflow_plan_error_eq (executor : Executor) (w : Workflow)
    (input_text : String) (t0 t1 : Int) (e : String)
    (stepsP : List WorkflowStep)
    (h : planExecutionGroups
        { w with status := WorkflowStatus.running, start_time := some t0 } =
      (.error e, stepsP)) :
    executeWorkflow executor w input_text t0 t1 =
      (⟨w.id, false, none, some e, stepResultsDict stepsP, t1 - t0,
        stepsP.length, (stepsByStatus stepsP .completed).length,
        (stepsByStatus stepsP .failed).length⟩,
       { w with
         steps := stepsP
         status := WorkflowStatus.failed
         start_time := some t0
         end_time := some t1 },
       [], 0) := by
  simp only [executeWorkflow]
  rw [h]

/-- Common conclusions whenever the planner errors: failed workflow, cycle
error reported, empty call log, zero groups dispatched. -/
theorem executeWorkflow_of_planAux_error (w : Workflow) (executor : Executor)
    (input_text : String) (t0 t1 : Int)
    (herr : (planAux w.steps.length w.steps (List.range w.steps.length)).1 =
      .error "Circular dependency detected in workflow") :
    (executeWorkflow executor w input_text t0 t1).1.success = false ∧
    (executeWorkflow executor w input_text t0 t1).1.error =
      some "Circular dependency detected in workflow" ∧
    (executeWorkflow executor w input_text t0 t1).2.1.status = .failed ∧
    (executeWorkflow executor w input_text t0 t1).2.2.1 = [] ∧
    (executeWorkflow executor w input_text t0 t1).2.2.2 = 0 := by
  have hpe : (planExecutionGroups
      { w with status := WorkflowStatus.running, start_time := some t0 }).1 =
      .error "Circular dependency detected in workflow" :=
    planExecutionGroups_error _ _ herr
  rcases hq : planExecutionGroups
      { w with status := WorkflowStatus.running, start_time := some t0 } with ⟨r, stepsP⟩
  rw [hq] at hpe
  simp only at hpe
  subst hpe
  rw [executeWorkflow_plan_error_eq executor w input_text t0 t1 _ stepsP hq]
  exact ⟨rfl, rfl, rfl, rfl, rfl⟩

/-- Dependency edge of the workflow graph: the step at index `i` names a
dependency resolving (by first id match, as `get_step` does) to the step at
index `j`. -/
def DependsEdge (steps : List WorkflowStep) (i j : Nat) : Prop :=
  ∃ s, steps[i]? = some s ∧ ∃ d ∈ s.depends_on, getStepIdx steps d = some j

/-- A set of indices each of which waits on another member of the set (and
none scratch-marked `Completed`) is never scheduled: planning always ends
in the cycle error. -/
theorem planAux_error_of_trapped (S : Nat → Prop) :
    ∀ (fuel : Nat) (steps : List WorkflowStep) (remaining : List Nat),
      (∃ i0, S i0) →
      (∀ i, S i → i ∈ remaining ∧ ∃ s, steps[i]? = some s ∧
        s.status ≠ WorkflowStatus.completed ∧
        ∃ d ∈ s.depends_on, ∃ j, S j ∧ getStepIdx steps d = some j) →
      (planAux fuel steps remaining).1 =
        .error "Circular dependency detected in workflow" := by
  intro fuel
  induction fuel with
  | zero =>
    intro steps remaining hex hinv
    rcases hex with ⟨i0, hi0⟩
    rw [planAux, isEmpty_false_of_mem (hinv i0 hi0).1]
    rfl
  | succ f ih =>
    intro steps remaining hex hinv
    rcases hex with ⟨i0, hi0⟩
    rw [planAux, isEmpty_false_of_mem (hinv i0 hi0).1]
    simp only [Bool.false_eq_true, if_false]
    have hnr : ∀ i, S i → readyAt steps i = false := by
      intro i hi
      rcases hinv i hi with ⟨hmem, s, hs, hst, d, hd, j, hSj, hidx⟩
      rcases hinv j hSj with ⟨hmemj, sj, hsj, hstj, _⟩
      rcases getStep_of_getStepIdx d steps j hidx with ⟨sj2, hsj2, hfind⟩
      have hsame : sj2 = sj := by
        rw [hsj2] at hsj
        cases hsj
        rfl
      apply readyAt_false_of_dep steps i s hs d hd
      simp only [depSatisfied, hfind, hsame]
      cases hq : sj.status <;> simp_all
    by_cases hready : (remaining.filter (readyAt steps)).isEmpty
    · rw [if_pos hready]
    · rw [if_neg hready]
      have hinv2 : ∀ i, S i →
          i ∈ remaining.filter (fun j => !(readyAt steps j)) ∧
          ∃ s, (markCompleted steps (remaining.filter (readyAt steps)))[i]? = some s ∧
            s.status ≠ WorkflowStatus.completed ∧
            ∃ d ∈ s.depends_on, ∃ j, S j ∧
              getStepIdx (markCompleted steps (remaining.filter (readyAt steps))) d =
                some j := by
        intro i hi
        rcases hinv i hi with ⟨hmem, s, hs, hst, d, hd, j, hSj, hidx⟩
        have hnoti : i ∉ remaining.filter (readyAt steps) := by
          intro hin
          have h2 := List.of_mem_filter hin
          rw [hnr i hi] at h2
          exact Bool.noConfusion h2
        refine ⟨List.mem_filter.mpr ⟨hmem, by rw [hnr i hi]; rfl⟩,
          s, ?_, hst, d, hd, j, hSj, ?_⟩
        · rw [markCompleted_getElem_notin _ _ i hnoti]
          exact hs
        · rw [getStepIdx_eq_of_ids_eq d _ steps
            (map_strip_id_eq _ _ (markCompleted_map_strip _ _))]
          exact hidx
      have hrec := ih (markCompleted steps (remaining.filter (readyAt steps)))
        (remaining.filter (fun j => !(readyAt steps j))) ⟨i0, hi0⟩ hinv2
      simp only [hrec]
      rfl

/-- C2: calling `execute_workflow` on a workflow whose dependency graph
contains a cycle (steps in their pre-execution `Pending` state) raises the
planning cycle error before any executor call: no step is dispatched, the
workflow is marked `Failed`, and the returned result has success = false
with the cycle error as the reason. -/
theorem execute_cycle_fails (w : Workflow) (executor : Executor)
    (input_text : String) (t0 t1 : Int)
    (hcyc : ∃ i, Relation.TransGen (DependsEdge w.steps) i i)
    (hpend : ∀ s ∈ w.steps, s.status = WorkflowStatus.pending) :
    (executeWorkflow executor w input_text t0 t1).1.success = false ∧
    (executeWorkflow executor w input_text t0 t1).1.error =
      some "Circular dependency detected in workflow" ∧
    (executeWorkflow executor w input_text t0 t1).2.1.status = .failed ∧
    (executeWorkflow executor w input_text t0 t1).2.2.1 = [] ∧
    (executeWorkflow executor w input_text t0 t1).2.2.2 = 0 := by
  rcases hcyc with ⟨i0, hloop⟩
  apply executeWorkflow_of_planAux_error
  apply planAux_error_of_trapped (fun m =>
    Relation.TransGen (DependsEdge w.steps) i0 m ∧
    Relation.TransGen (DependsEdge w.steps) m i0)
  · exact ⟨i0, hloop, hloop⟩
  · intro m hm
    rcases hm with ⟨him, hmi⟩
    have hedge : ∃ j, (Relation.TransGen (DependsEdge w.steps) i0 j ∧
        Relation.TransGen (DependsEdge w.steps) j i0) ∧
        DependsEdge w.steps m j := by
      rcases Relation.TransGen.head'_iff.mp hmi with ⟨c, hmc, hci⟩
      exact ⟨c, ⟨him.tail hmc, Relation.TransGen.trans_right hci hloop⟩, hmc⟩
    rcases hedge with ⟨j, hSj, s, hs, d, hd, hidx⟩
    have hsmem : s ∈ w.steps := by
      rcases List.getElem?_eq_some.mp hs with ⟨hlt, hget⟩
      rw [← hget]
      exact List.getElem_mem hlt
    refine ⟨?_, s, hs, ?_, d, hd, j, hSj, hidx⟩
    · rw [List.mem_range]
      rcases List.getElem?_eq_some.mp hs with ⟨hlt, _⟩
      exact hlt
    · rw [hpend s hsmem]
      simp

/-- First member of the concrete two-step cycle. -/
def cycStepA : WorkflowStep := { id := "a", pattern := "p", depends_on := ["b"] }

/-- Second member of the concrete two-step cycle. -/
def cycStepB : WorkflowStep := { id := "b", pattern := "q", depends_on := ["a"] }

/-- Concrete cyclic workflow. -/
def cycleWorkflow : Workflow := { id := "w", name := "w", steps := [cycStepA, cycStepB] }

/-- A trivial executor succeeding with a constant output. -/
def constExecutor : Executor := fun _ _ _ _ _ => ⟨true, "o", none, 0, 0⟩

/-- C2 witness: the concrete two-step cycle fails with the cycle error and
dispatches nothing. -/
theorem execute_cycle_fails_witness :
    (executeWorkflow constExecutor cycleWorkflow "in" 0 1).1.success = false ∧
    (executeWorkflow constExecutor cycleWorkflow "in" 0 1).2.2.1 = [] := by
  have e01 : DependsEdge cycleWorkflow.steps 0 1 :=
    ⟨cycStepA, rfl, "b", by decide, rfl⟩
  have e10 : DependsEdge cycleWorkflow.steps 1 0 :=
    ⟨cycStepB, rfl, "a", by decide, rfl⟩
  have h := execute_cycle_fails cycleWorkflow constExecutor "in" 0 1
    ⟨0, Relation.TransGen.head e01 (Relation.TransGen.single e10)⟩ (by decide)
  exact ⟨h.1, h.2.2.2.1⟩

/-- C10: a workflow containing a step whose `dependsOn` names an id
matching no step does not crash and does not skip the step: the step never
becomes ready, planning raises the same circular-dependency execution error
as a cycle would, the workflow is marked `Failed`, the returned result has
success = false with that error, and no executor call is made. -/
theorem execute_dangling_dep_fails (w : Workflow) (executor : Executor)
    (input_text : String) (t0 t1 : Int)
    (h : ∃ s ∈ w.steps, ∃ d ∈ s.depends_on, getStep w.steps d = none) :
    (executeWorkflow executor w input_text t0 t1).1.success = false ∧
    (executeWorkflow executor w input_text t0 t1).1.error =
      some "Circular dependency detected in workflow" ∧
    (executeWorkflow executor w input_text t0 t1).2.1.status = .failed ∧
    (executeWorkflow executor w input_text t0 t1).2.2.1 = [] ∧
    (executeWorkflow executor w input_text t0 t1).2.2.2 = 0 := by
  rcases h with ⟨s, hs, d, hd, hnone⟩
  rcases List.getElem?_of_mem hs with ⟨i, hi⟩
  have himem : i ∈ List.range w.steps.length := by
    rw [List.mem_range]
    rcases List.getElem?_eq_some.mp hi with ⟨hlt, _⟩
    exact hlt
  have herr := planAux_error_of_dangling w.steps.length w.steps
    (List.range w.steps.length) i himem ⟨s, hi, d, hd, hnone⟩
  have hpe : (planExecutionGroups
      { w with status := WorkflowStatus.running, start_time := some t0 }).1 =
      .error "Circular dependency detected in workflow" :=
    planExecutionGroups_error _ _ herr
  rcases hq : planExecutionGroups
      { w with status := WorkflowStatus.running, start_time := some t0 } with ⟨r, stepsP⟩
  rw [hq] at hpe
  simp only at hpe
  subst hpe
  rw [executeWorkflow_plan_error_eq executor w input_text t0 t1 _ stepsP hq]
  exact ⟨rfl, rfl, rfl, rfl, rfl⟩

/-- A workflow whose only step depends on a nonexistent id. -/
def danglingWorkflow : Workflow :=
  { id := "w", name := "w", steps := [{ id := "a", pattern := "p", depends_on := ["missing"] }] }

/-- C10 witness: concrete dangling-dependency workflow fails with the cycle
error and makes no executor call. -/
theorem execute_dangling_dep_fails_witness :
    (executeWorkflow constExecutor danglingWorkflow "in" 0 1).1.success = false ∧
    (executeWorkflow constExecutor danglingWorkflow "in" 0 1).2.2.1 = [] :=
  ⟨(execute_dangling_dep_fails danglingWorkflow constExecutor "in" 0 1 (by decide)).1,
   (execute_dangling_dep_fails danglingWorkflow constExecutor "in" 0 1 (by decide)).2.2.2.1⟩

/-- Two untagged, dependency-free steps (ready together in round one). -/
def untaggedPairWorkflow : Workflow :=
  { id := "w", name := "w", steps := [{ id := "x", pattern := "p" }, { id := "y", pattern := "q" }] }

/-- C7 counterexample: in a round where no ready step carries a
`parallelGroup` tag, the planner emits ONE group holding the whole ready
set, not one singleton group per untagged step: two untagged independent
steps plan to `[[0, 1]]`, not `[[0], [1]]`. -/
theorem untagged_round_single_group_counterexample :
    (planExecutionGroups untaggedPairWorkflow).1 = .ok [[0, 1]] ∧
    ([[0, 1]] : List (List Nat)) ≠ [[0], [1]] :=
  ⟨rfl, by decide⟩

/-- C7 (amended): in each planning round, when at least one ready step
carries a truthy `parallelGroup` tag the ready set is partitioned by group
key — every ready step lands in exactly one group, groups are
key-homogeneous, and a ready step sharing its key with no other ready step
(in particular an untagged step whose synthetic `_sequential_` key collides
with no tag) forms its own singleton group.  When no ready step carries a
tag, the whole ready set forms one single execution group. -/
theorem round_grouping_spec (steps : List WorkflowStep) (ready : List Nat)
    (hvalid : ∀ i ∈ ready, i < steps.length) (hnd : ready.Nodup) :
    (anyTagged steps ready = false → roundGroups steps ready = [ready]) ∧
    (anyTagged steps ready = true →
      (roundGroups steps ready).flatten.Perm ready ∧
      (∀ g ∈ roundGroups steps ready, ∀ i ∈ g, ∀ j ∈ g,
        keyAt steps i = keyAt steps j) ∧
      (∀ i ∈ ready, (∀ j ∈ ready, j ≠ i → keyAt steps j ≠ keyAt steps i) →
        [i] ∈ roundGroups steps ready)) := by
  constructor
  · intro hno
    rw [roundGroups, hno]
    rfl
  · intro hyes
    have hrg : roundGroups steps ready = partitionReady steps ready := by
      rw [roundGroups, hyes]
      rfl
    have hperm : (partitionReady steps ready).flatten.Perm ready := by
      have := partition_foldl_flatten_perm steps ready [] hvalid
      simpa [partitionReady] using this
    have hhom : ∀ g ∈ partitionReady steps ready, ∀ i ∈ g, ∀ j ∈ g,
        keyAt steps i = keyAt steps j := by
      intro g hg i hig j hjg
      rcases List.mem_map.mp hg with ⟨kv, hkv, rfl⟩
      have hall := partition_foldl_homogeneous steps ready [] (by simp) kv hkv
      rw [hall i hig, hall j hjg]
    rw [hrg]
    refine ⟨hperm, hhom, ?_⟩
    intro i hi huniq
    have hif : i ∈ (partitionReady steps ready).flatten :=
      (hperm.mem_iff).mpr hi
    rcases List.mem_flatten.mp hif with ⟨g, hg, hig⟩
    have hfnd : (partitionReady steps ready).flatten.Nodup :=
      (hperm.nodup_iff).mpr hnd
    have hgnd : g.Nodup := (List.nodup_flatten.mp hfnd).1 g hg
    have hall : ∀ j ∈ g, j = i := by
      intro j hjg
      by_contra hne
      have hjready : j ∈ ready :=
        (hperm.mem_iff).mp (List.mem_flatten.mpr ⟨g, hg, hjg⟩)
      exact huniq j hjready hne (hhom g hg j hjg i hig)
    rw [← eq_singleton_of_nodup_all_eq g i hig hall hgnd]
    exact hg

/-- C7 witness for the amended theorem: a ready set of one tagged and one
untagged step; the untagged step forms its own singleton group. -/
theorem round_grouping_spec_witness :
    [1] ∈ roundGroups [{ id := "x", pattern := "p", parallel_group := some "g1" }, { id := "y", pattern := "q" }] [0, 1] :=
  ((round_grouping_spec _ [0, 1] (by decide) (by decide)).2 (by decide)).2.2
    1 (by decide) (by decide)

/-- First step of the duplicate-id pair used against C8. -/
def dupStepA : WorkflowStep := { id := "s", pattern := "p1" }

/-- Second step of the duplicate-id pair used against C8. -/
def dupStepB : WorkflowStep := { id := "s", pattern := "p2" }

/-- The workflow `create_custom_workflow` builds from the duplicate pair. -/
def dupWorkflow : Workflow :=
  { id := "wf-1", name := "dup", steps := [dupStepA, dupStepB], config := {} }

/-- C8 counterexample: a step list with a duplicate id and no dangling
reference raises no construction error — the workflow is built and added to
the registry. -/
theorem create_custom_duplicate_registered :
    dupStepA.id = dupStepB.id ∧
    (createCustomWorkflow [] "wf-1" "dup" [dupStepA, dupStepB] {}).1 = .ok dupWorkflow ∧
    (createCustomWorkflow [] "wf-1" "dup" [dupStepA, dupStepB] {}).2 =
      [("wf-1", dupWorkflow)] :=
  ⟨rfl, rfl, rfl⟩

/-- C8 (amended): `create_custom_workflow` raises a construction error
synchronously exactly when some step's `depends_on` names an id absent from
the given list, and then the registry is unchanged (the workflow is never
registered); otherwise the built workflow is registered.  A duplicate step
id alone is not rejected at construction time (only `validate_workflow`
reports it). -/
theorem create_custom_spec (reg : Registry) (wid wname : String)
    (steps : List WorkflowStep) (cfg : ExecutionConfig) :
    ((∃ s ∈ steps, ∃ d ∈ s.depends_on, d ∉ steps.map (fun s2 => s2.id)) ↔
      ∃ e, (createCustomWorkflow reg wid wname steps cfg).1 = .error e) ∧
    ((∃ e, (createCustomWorkflow reg wid wname steps cfg).1 = .error e) →
      (createCustomWorkflow reg wid wname steps cfg).2 = reg) ∧
    (∀ w2, (createCustomWorkflow reg wid wname steps cfg).1 = .ok w2 →
      (createCustomWorkflow reg wid wname steps cfg).2 = dictInsert reg wid w2) := by
  rcases hf : steps.findSome? (fun s =>
      (s.depends_on.find? (fun dep_id =>
        !((steps.map (fun s2 => s2.id)).contains dep_id))).map
        (fun dep_id => (s.id, dep_id))) with _ | sd
  · have hcc : createCustomWorkflow reg wid wname steps cfg =
        (.ok { id := wid, name := wname, steps := steps, config := cfg },
         dictInsert reg wid
           { id := wid, name := wname, steps := steps, config := cfg }) := by
      rw [createCustomWorkflow, hf]
    have hnone := List.findSome?_eq_none_iff.mp hf
    refine ⟨?_, ?_, ?_⟩
    · constructor
      · rintro ⟨s, hs, d, hd, hnotin⟩
        exfalso
        have h1 := hnone s hs
        rw [Option.map_eq_none'] at h1
        have h2 := List.find?_eq_none.mp h1 d hd
        apply hnotin
        simpa using h2
      · rintro ⟨e, he⟩
        rw [hcc] at he
        exact Except.noConfusion he
    · rintro ⟨e, he⟩
      rw [hcc] at he
      exact Except.noConfusion he
    · intro w2 hw2
      rw [hcc] at hw2 ⊢
      cases hw2
      rfl
  · have hcc : createCustomWorkflow reg wid wname steps cfg =
        (.error (s!"Step {sd.1} depends on non-existent step {sd.2}"), reg) := by
      rw [createCustomWorkflow, hf]
    rcases List.exists_of_findSome?_eq_some hf with ⟨s, hs, hmap⟩
    rw [Option.map_eq_some'] at hmap
    rcases hmap with ⟨d, hfind, hpair⟩
    refine ⟨?_, ?_, ?_⟩
    · constructor
      · intro _
        exact ⟨_, by rw [hcc]⟩
      · intro _
        refine ⟨s, hs, d, List.mem_of_find?_eq_some hfind, ?_⟩
        have hp := List.find?_some hfind
        intro hmem
        have : (steps.map (fun s2 => s2.id)).contains d = true := by
          rw [List.contains]
          exact List.elem_iff.mpr hmem
        rw [this] at hp
        exact Bool.noConfusion hp
    · intro _
      rw [hcc]
    · intro w2 hw2
      rw [hcc] at hw2
      exact Except.noConfusion hw2

/-- C8 witness for the amended theorem: a concrete dangling reference is
rejected with the registry unchanged. -/
theorem create_custom_spec_witness :
    (createCustomWorkflow [] "wf-2" "bad"
      [{ id := "s1", pattern := "p", depends_on := ["missing"] }] {}).2 = [] :=
  (create_custom_spec [] "wf-2" "bad"
      [{ id := "s1", pattern := "p", depends_on := ["missing"] }] {}).2.1
    ⟨"Step s1 depends on non-existent step missing", rfl⟩

/-- C9: cleanup removes from the registry exactly the workflows with a
terminal status whose end time is older than the maximum age, returns the
number removed, and never removes a pending or running workflow. -/
theorem cleanup_removes_exactly (reg : Registry) (now max_age : Int) :
    (∀ kv, kv ∈ (cleanupCompletedWorkflows reg now max_age).1 ↔
        (kv ∈ reg ∧ ¬ SpecRemoved kv.2 now max_age)) ∧
    (cleanupCompletedWorkflows reg now max_age).2 +
        (cleanupCompletedWorkflows reg now max_age).1.length = reg.length ∧
    (∀ kv ∈ reg, (kv.2.status = .pending ∨ kv.2.status = .running) →
        kv ∈ (cleanupCompletedWorkflows reg now max_age).1) := by
  have hb : ∀ b : Bool, (b = false) ↔ ¬ (b = true) := by decide
  have hiff : ∀ w : Workflow,
      shouldClean w (now - max_age) = false ↔ ¬ SpecRemoved w now max_age := by
    intro w
    rw [hb]
    exact not_congr (shouldClean_iff w (now - max_age))
  refine ⟨?_, ?_, ?_⟩
  · intro kv
    show kv ∈ reg.filter (fun kv => !(shouldClean kv.2 (now - max_age))) ↔ _
    rw [List.mem_filter]
    constructor
    · rintro ⟨hm, hc⟩
      refine ⟨hm, (hiff kv.2).mp ?_⟩
      revert hc
      cases shouldClean kv.2 (now - max_age) <;> simp
    · rintro ⟨hm, hns⟩
      refine ⟨hm, ?_⟩
      have hf := (hiff kv.2).mpr hns
      simp [hf]
  · show ((reg.filter (fun kv => shouldClean kv.2 (now - max_age))).map
        (fun kv => kv.1)).length +
      (reg.filter (fun kv => !(shouldClean kv.2 (now - max_age)))).length =
        reg.length
    rw [List.length_map]
    have h2 := List.length_eq_length_filter_add
      (l := reg) (fun kv => shouldClean kv.2 (now - max_age))
    omega
  · intro kv hm hst
    show kv ∈ reg.filter (fun kv => !(shouldClean kv.2 (now - max_age)))
    rw [List.mem_filter]
    refine ⟨hm, ?_⟩
    have ht : isTerminal kv.2.status = false := by
      rcases hst with h | h <;> rw [h] <;> rfl
    simp [shouldClean, ht]

/-- A completed workflow that ended 25 hours before the reference time. -/
def oldDoneWorkflow : Workflow :=
  { id := "old", name := "old", steps := [], status := .completed, end_time := some (-25) }

/-- A running workflow, arbitrarily old. -/
def oldRunningWorkflow : Workflow :=
  { id := "run", name := "run", steps := [], status := .running, end_time := some (-100) }

/-- C9 witness: with a 24-hour maximum age at time 0, the 25-hours-old
completed workflow is removed and the old running one is kept. -/
theorem cleanup_removes_exactly_witness :
    ("run", oldRunningWorkflow) ∈
      (cleanupCompletedWorkflows
        [("old", oldDoneWorkflow), ("run", oldRunningWorkflow)] 0 24).1 ∧
    (cleanupCompletedWorkflows
        [("old", oldDoneWorkflow), ("run", oldRunningWorkflow)] 0 24).2 = 1 :=
  ⟨(cleanup_removes_exactly
        [("old", oldDoneWorkflow), ("run", oldRunningWorkflow)] 0 24).2.2
      ("run", oldRunningWorkflow) (by decide) (Or.inr rfl),
   by decide⟩

/-! ## Lemmas towards the planner correctness claim -/

theorem exists_min_image_list (f : Nat → Nat) :
    ∀ (l : List Nat), l ≠ [] → ∃ m ∈ l, ∀ j ∈ l, f m ≤ f j := by
  intro l
  induction l with
  | nil => intro h; exact absurd rfl h
  | cons a t ih =>
    intro _
    by_cases ht : t = []
    · subst ht
      refine ⟨a, by simp, ?_⟩
      intro j hj
      simp only [List.mem_singleton] at hj
      subst hj
      exact Nat.le_refl _
    · rcases ih ht with ⟨m, hm, hmin⟩
      by_cases hcmp : f a ≤ f m
      · refine ⟨a, by simp, ?_⟩
        intro j hj
        rcases List.mem_cons.mp hj with rfl | hjt
        · exact Nat.le_refl _
        · exact Nat.le_trans hcmp (hmin j hjt)
      · refine ⟨m, List.mem_cons_of_mem _ hm, ?_⟩
        intro j hj
        rcases List.mem_cons.mp hj with rfl | hjt
        · exact Nat.le_of_lt (Nat.lt_of_not_le hcmp)
        · exact hmin j hjt

theorem setStatusAt_getElem_self :
    ∀ (l : List WorkflowStep) (i : Nat) (st : WorkflowStatus) (s : WorkflowStep),
      l[i]? = some s → (setStatusAt l i st)[i]? = some { s with status := st } := by
  intro l
  induction l with
  | nil => intro i st s h; rw [List.getElem?_nil] at h; exact Option.noConfusion h
  | cons a t ih =>
    intro i st s h
    cases i with
    | zero =>
      rw [List.getElem?_cons_zero] at h
      cases h
      exact List.getElem?_cons_zero
    | succ i2 =>
      rw [List.getElem?_cons_succ] at h
      show (a :: setStatusAt t i2 st)[i2 + 1]? = _
      rw [List.getElem?_cons_succ]
      exact ih i2 st s h

theorem markCompleted_getElem_in (ready : List Nat) :
    ∀ (l : List WorkflowStep) (i : Nat), i ∈ ready →
      ∀ s, l[i]? = some s →
      ∃ s2, (markCompleted l ready)[i]? = some s2 ∧
        s2.status = WorkflowStatus.completed := by
  induction ready with
  | nil => intro l i hi; cases hi
  | cons m t ih =>
    intro l i hi s hs
    show ∃ s2, (markCompleted (setStatusAt l m .completed) t)[i]? = some s2 ∧ _
    by_cases hit : i ∈ t
    · by_cases him : i = m
      · subst him
        exact ih _ i hit _ (setStatusAt_getElem_self l i .completed s hs)
      · have hpres : (setStatusAt l m .completed)[i]? = some s := by
          rw [setStatusAt_getElem_ne l m .completed i him]
          exact hs
        exact ih _ i hit _ hpres
    · have him : i = m := by
        rcases List.mem_cons.mp hi with h | h
        · exact h
        · exact absurd h hit
      subst him
      rw [markCompleted_getElem_notin t _ i hit]
      exact ⟨{ s with status := .completed },
        setStatusAt_getElem_self l i .completed s hs, rfl⟩

theorem getStepIdx_of_getStep (d : String) :
    ∀ (l : List WorkflowStep) (s : WorkflowStep), getStep l d = some s →
      ∃ j, getStepIdx l d = some j ∧ l[j]? = some s := by
  intro l
  induction l with
  | nil => intro s h; exact Option.noConfusion h
  | cons a t ih =>
    intro s h
    rw [getStep] at h
    by_cases ha : (a.id == d) = true
    · rw [@List.find?_cons_of_pos _ (fun x => x.id == d) a t ha] at h
      cases h
      exact ⟨0, by rw [getStepIdx, List.findIdx?_cons, if_pos ha],
        List.getElem?_cons_zero⟩
    · rw [@List.find?_cons_of_neg _ (fun x => x.id == d) a t ha] at h
      rcases ih s (by rw [getStep]; exact h) with ⟨j, hj, hval⟩
      refine ⟨j + 1, ?_, by rw [List.getElem?_cons_succ]; exact hval⟩
      rw [getStepIdx, List.findIdx?_cons, if_neg ha, List.findIdx?_succ]
      rw [getStepIdx] at hj
      rw [hj]
      rfl

theorem getElem?_strip_eq (l1 l2 : List WorkflowStep)
    (h : l1.map stripStatus = l2.map stripStatus) (i : Nat) :
    (l1[i]?).map stripStatus = (l2[i]?).map stripStatus := by
  rw [← List.getElem?_map, ← List.getElem?_map, h]

theorem length_eq_of_strip (l1 l2 : List WorkflowStep)
    (h : l1.map stripStatus = l2.map stripStatus) : l1.length = l2.length := by
  have h2 := congrArg List.length h
  simpa using h2

theorem roundGroups_flatten_perm (steps : List WorkflowStep) (ready : List Nat)
    (hvalid : ∀ i ∈ ready, i < steps.length) :
    (roundGroups steps ready).flatten.Perm ready := by
  rw [roundGroups]
  by_cases ht : anyTagged steps ready
  · rw [if_pos ht]
    have h2 := partition_foldl_flatten_perm steps ready [] hvalid
    simpa [partitionReady] using h2
  · rw [if_neg ht]
    simp

/-- Planner loop correctness: from a state whose statuses track membership
in `remaining` (pending inside, scratch-completed outside), with a rank
function witnessing acyclicity and all dependencies resolvable, the loop
returns groups that partition `remaining` and schedule every resolved
dependency either before this call or in a strictly earlier group. -/
theorem planAux_ok_spec (orig : List WorkflowStep) (f : Nat → Nat)
    (hclosed : ∀ s ∈ orig, ∀ d ∈ s.depends_on, ∃ j, getStepIdx orig d = some j)
    (hrank : ∀ i j, DependsEdge orig i j → f j < f i) :
    ∀ (fuel : Nat) (steps : List WorkflowStep) (remaining : List Nat),
      remaining.length ≤ fuel →
      steps.map stripStatus = orig.map stripStatus →
      remaining.Nodup →
      (∀ i ∈ remaining, i < orig.length) →
      (∀ i, i < orig.length → ∀ s, steps[i]? = some s →
        ((i ∈ remaining → s.status = .pending) ∧
         (i ∉ remaining → s.status = .completed))) →
      ∃ groups, (planAux fuel steps remaining).1 = .ok groups ∧
        groups.flatten.Perm remaining ∧
        (∀ (gi : Nat) (g : List Nat), groups[gi]? = some g →
          ∀ i ∈ g, ∀ (s : WorkflowStep), orig[i]? = some s →
          ∀ d ∈ s.depends_on, ∃ j, getStepIdx orig d = some j ∧
            (j ∉ remaining ∨ ∃ (gj : Nat) (g2 : List Nat),
              gj < gi ∧ groups[gj]? = some g2 ∧ j ∈ g2)) := by
  intro fuel
  induction fuel with
  | zero =>
    intro steps remaining hlen _ _ _ _
    have hre : remaining = [] := List.eq_nil_of_length_eq_zero (Nat.le_zero.mp hlen)
    subst hre
    refine ⟨[], by rw [planAux]; rfl, by simp, ?_⟩
    intro gi g hg
    rw [List.getElem?_nil] at hg
    exact Option.noConfusion hg
  | succ fl ih =>
    intro steps remaining hlen hstrip hnd hbound hstatus
    by_cases hre : remaining = []
    · subst hre
      refine ⟨[], by rw [planAux]; rfl, by simp, ?_⟩
      intro gi g hg
      rw [List.getElem?_nil] at hg
      exact Option.noConfusion hg
    · have hlensteps : steps.length = orig.length := length_eq_of_strip _ _ hstrip
      rcases exists_min_image_list f remaining hre with ⟨m, hmrem, hmmin⟩
      have hmlt : m < orig.length := hbound m hmrem
      have hms : ∃ sm, steps[m]? = some sm := by
        rcases hq : steps[m]? with _ | sm
        · rw [List.getElem?_eq_none_iff] at hq
          omega
        · exact ⟨sm, rfl⟩
      rcases hms with ⟨sm, hsm⟩
      have hmo : ∃ om, orig[m]? = some om ∧ stripStatus om = stripStatus sm := by
        have h2 := getElem?_strip_eq steps orig hstrip m
        rw [hsm] at h2
        rcases hq : orig[m]? with _ | om
        · rw [hq] at h2
          exact Option.noConfusion h2
        · rw [hq] at h2
          simp only [Option.map_some'] at h2
          injection h2 with h3
          exact ⟨om, rfl, h3.symm⟩
      rcases hmo with ⟨om, hom, hstripom⟩
      have hdepeq : om.depends_on = sm.depends_on :=
        congrArg (fun x => x.depends_on) hstripom
      have hmready : readyAt steps m = true := by
        simp only [readyAt, hsm]
        unfold stepReady
        by_cases hdeps : sm.depends_on.isEmpty
        · rw [if_pos hdeps]
        · rw [if_neg hdeps, List.all_eq_true]
          intro d hd
          have hdo : d ∈ om.depends_on := by
            rw [hdepeq]
            exact hd
          have homem : om ∈ orig := by
            rcases List.getElem?_eq_some.mp hom with ⟨hlt, hget⟩
            rw [← hget]
            exact List.getElem_mem hlt
          rcases hclosed om homem d hdo with ⟨j, hidx⟩
          have hfj : f j < f m := hrank m j ⟨om, hom, d, hdo, hidx⟩
          have hjnot : j ∉ remaining := by
            intro hjin
            exact absurd (hmmin j hjin) (Nat.not_le_of_lt hfj)
          have hjlt : j < orig.length := by
            rcases getStep_of_getStepIdx d orig j hidx with ⟨sj0, hsj0, _⟩
            rcases List.getElem?_eq_some.mp hsj0 with ⟨hlt, _⟩
            exact hlt
          have hidx2 : getStepIdx steps d = some j := by
            rw [getStepIdx_eq_of_ids_eq d steps orig (map_strip_id_eq _ _ hstrip)]
            exact hidx
          rcases getStep_of_getStepIdx d steps j hidx2 with ⟨sj, hsj, hfind⟩
          have hsjc : sj.status = .completed := (hstatus j hjlt sj hsj).2 hjnot
          simp only [depSatisfied, hfind, hsjc]
          rfl
      have hmreadyf : m ∈ remaining.filter (readyAt steps) :=
        List.mem_filter.mpr ⟨hmrem, hmready⟩
      have hreadyne : (remaining.filter (readyAt steps)).isEmpty = false :=
        isEmpty_false_of_mem hmreadyf
      have hremne : remaining.isEmpty = false := isEmpty_false_of_mem hmrem
      rw [planAux, hremne]
      simp only [Bool.false_eq_true, if_false]
      rw [hreadyne]
      simp only [Bool.false_eq_true, if_false]
      have hlen2 : (remaining.filter (fun i => !(readyAt steps i))).length ≤ fl := by
        have hlt := length_filter_not_lt (readyAt steps) remaining ⟨m, hmrem, hmready⟩
        omega
      have hstrip2 : (markCompleted steps
          (remaining.filter (readyAt steps))).map stripStatus =
          orig.map stripStatus := by
        rw [markCompleted_map_strip]
        exact hstrip
      have hnd2 : (remaining.filter (fun i => !(readyAt steps i))).Nodup :=
        hnd.filter _
      have hbound2 : ∀ i ∈ remaining.filter (fun i => !(readyAt steps i)),
          i < orig.length :=
        fun i hi => hbound i (List.mem_of_mem_filter hi)
      have hstatus2 : ∀ i, i < orig.length → ∀ s,
          (markCompleted steps (remaining.filter (readyAt steps)))[i]? = some s →
          ((i ∈ remaining.filter (fun i => !(readyAt steps i)) →
            s.status = .pending) ∧
           (i ∉ remaining.filter (fun i => !(readyAt steps i)) →
            s.status = .completed)) := by
        intro i hilt s2 hs2
        by_cases hir : i ∈ remaining
        · by_cases hird : readyAt steps i = true
          · have hiready : i ∈ remaining.filter (readyAt steps) :=
              List.mem_filter.mpr ⟨hir, hird⟩
            constructor
            · intro hin2
              have h2 := List.of_mem_filter hin2
              rw [hird] at h2
              exact Bool.noConfusion h2
            · intro _
              have hsome : ∃ s0, steps[i]? = some s0 := by
                rcases hq : steps[i]? with _ | s0
                · rw [List.getElem?_eq_none_iff] at hq
                  omega
                · exact ⟨s0, rfl⟩
              rcases hsome with ⟨s0, hs0⟩
              rcases markCompleted_getElem_in (remaining.filter (readyAt steps))
                steps i hiready s0 hs0 with ⟨s3, hs3, hs3c⟩
              rw [hs2] at hs3
              cases hs3
              exact hs3c
          · have hif : readyAt steps i = false := by
              cases hq : readyAt steps i
              · rfl
              · exact absurd hq hird
            have hnotin : i ∉ remaining.filter (readyAt steps) := by
              intro hin
              exact hird (List.of_mem_filter hin)
            have hpres := markCompleted_getElem_notin
              (remaining.filter (readyAt steps)) steps i hnotin
            rw [hs2] at hpres
            have hsteps_i : steps[i]? = some s2 := hpres.symm
            have hstat := hstatus i hilt s2 hsteps_i
            constructor
            · intro _
              exact hstat.1 hir
            · intro hnot2
              exfalso
              apply hnot2
              apply List.mem_filter.mpr ⟨hir, ?_⟩
              rw [hif]
              rfl
        · have hnotin : i ∉ remaining.filter (readyAt steps) :=
            fun hin => hir (List.mem_of_mem_filter hin)
          have hpres := markCompleted_getElem_notin
            (remaining.filter (readyAt steps)) steps i hnotin
          rw [hs2] at hpres
          have hsteps_i : steps[i]? = some s2 := hpres.symm
          have hstat := hstatus i hilt s2 hsteps_i
          constructor
          · intro hin2
            exact absurd (List.mem_of_mem_filter hin2) hir
          · intro _
            exact hstat.2 hir
      rcases ih (markCompleted steps (remaining.filter (readyAt steps)))
        (remaining.filter (fun i => !(readyAt steps i)))
        hlen2 hstrip2 hnd2 hbound2 hstatus2 with ⟨groupsR, hokR, hpermR, hordR⟩
      have hvalidready : ∀ i ∈ remaining.filter (readyAt steps),
          i < steps.length := by
        intro i hi
        rw [hlensteps]
        exact hbound i (List.mem_of_mem_filter hi)
      have hfp := roundGroups_flatten_perm steps
        (remaining.filter (readyAt steps)) hvalidready
      refine ⟨roundGroups steps (remaining.filter (readyAt steps)) ++ groupsR,
        ?_, ?_, ?_⟩
      · rw [hokR]
        rfl
      · rw [List.flatten_append]
        exact (hfp.append hpermR).trans (List.filter_append_perm _ remaining)
      · intro gi g hg i hig s horigi d hd
        by_cases hgi : gi < (roundGroups steps (remaining.filter (readyAt steps))).length
        · rw [List.getElem?_append_left hgi] at hg
          have hgmem : g ∈ roundGroups steps (remaining.filter (readyAt steps)) := by
            rcases List.getElem?_eq_some.mp hg with ⟨hlt2, hgt⟩
            rw [← hgt]
            exact List.getElem_mem hlt2
          have hiready : i ∈ remaining.filter (readyAt steps) :=
            hfp.mem_iff.mp (List.mem_flatten.mpr ⟨g, hgmem, hig⟩)
          have hirm : i ∈ remaining := List.mem_of_mem_filter hiready
          have hirdy : readyAt steps i = true := List.of_mem_filter hiready
          have hilt : i < orig.length := hbound i hirm
          have hsome : ∃ s0, steps[i]? = some s0 := by
            rcases hq : steps[i]? with _ | s0
            · rw [List.getElem?_eq_none_iff] at hq
              omega
            · exact ⟨s0, rfl⟩
          rcases hsome with ⟨s0, hs0⟩
          have hdeq : s0.depends_on = s.depends_on := by
            have h2 := getElem?_strip_eq steps orig hstrip i
            rw [hs0, horigi] at h2
            simp only [Option.map_some'] at h2
            injection h2 with h3
            exact congrArg (fun x => x.depends_on) h3
          have hds : depSatisfied steps d = true := by
            have h4 : stepReady steps s0 = true := by
              simp only [readyAt, hs0] at hirdy
              exact hirdy
            unfold stepReady at h4
            by_cases hde : s0.depends_on.isEmpty
            · exfalso
              have : s0.depends_on = [] := List.isEmpty_iff.mp hde
              rw [← hdeq, this] at hd
              cases hd
            · rw [if_neg hde, List.all_eq_true] at h4
              exact h4 d (by rw [hdeq]; exact hd)
          rcases hq : getStep steps d with _ | sj
          · rw [depSatisfied, hq] at hds
            exact Bool.noConfusion hds
          · rcases getStepIdx_of_getStep d steps sj hq with ⟨j, hidxs, hjval⟩
            have hidxo : getStepIdx orig d = some j := by
              rw [← getStepIdx_eq_of_ids_eq d steps orig
                (map_strip_id_eq _ _ hstrip)]
              exact hidxs
            refine ⟨j, hidxo, Or.inl ?_⟩
            have hsjc : sj.status = .completed := by
              rw [depSatisfied, hq] at hds
              exact beq_iff_eq.mp hds
            intro hjrem
            have hjlt : j < orig.length := hbound j hjrem
            have hstatj := (hstatus j hjlt sj hjval).1 hjrem
            rw [hstatj] at hsjc
            exact WorkflowStatus.noConfusion hsjc
        · push_neg at hgi
          rw [List.getElem?_append_right hgi] at hg
          rcases hordR (gi - (roundGroups steps
              (remaining.filter (readyAt steps))).length) g hg i hig s horigi d hd
            with ⟨j, hidxo, hdisj⟩
          refine ⟨j, hidxo, ?_⟩
          rcases hdisj with hnot2 | ⟨gj, g2, hgjlt, hg2, hjg2⟩
          · by_cases hjrem : j ∈ remaining
            · right
              have hjready : readyAt steps j = true := by
                by_contra hnr
                apply hnot2
                apply List.mem_filter.mpr ⟨hjrem, ?_⟩
                have hjf : readyAt steps j = false := by
                  cases hq2 : readyAt steps j
                  · rfl
                  · exact absurd hq2 hnr
                rw [hjf]
                rfl
              have hjinready : j ∈ remaining.filter (readyAt steps) :=
                List.mem_filter.mpr ⟨hjrem, hjready⟩
              rcases List.mem_flatten.mp (hfp.mem_iff.mpr hjinready) with
                ⟨g2, hg2mem, hjg2⟩
              rcases List.getElem?_of_mem hg2mem with ⟨gj, hgj⟩
              have hgjlt : gj < (roundGroups steps
                  (remaining.filter (readyAt steps))).length := by
                rcases List.getElem?_eq_some.mp hgj with ⟨hlt2, _⟩
                exact hlt2
              refine ⟨gj, g2, by omega, ?_, hjg2⟩
              rw [List.getElem?_append_left hgjlt]
              exact hgj
            · exact Or.inl hjrem
          · right
            refine ⟨(roundGroups steps
                (remaining.filter (readyAt steps))).length + gj, g2,
              by omega, ?_, hjg2⟩
            rw [List.getElem?_append_right (by omega)]
            have heq : (roundGroups steps
                (remaining.filter (readyAt steps))).length + gj -
                (roundGroups steps
                  (remaining.filter (readyAt steps))).length = gj := by
              omega
            rw [heq]
            exact hg2

/-- C1: for every workflow in its pre-execution all-`Pending` state whose
dependency graph is acyclic (witnessed by a rank function decreasing along
`DependsEdge`) and whose every `dependsOn` id resolves to a step of the
same workflow, `_plan_execution_groups` terminates with a list of groups in
which every step appears in exactly one group (the concatenation of the
groups is a permutation of all step indices) and the step each `dependsOn`
id resolves to lies in a strictly earlier group. -/
theorem plan_acyclic_complete (w : Workflow)
    (hclosed : ∀ s ∈ w.steps, ∀ d ∈ s.depends_on,
      (getStep w.steps d).isSome = true)
    (hacyc : ∃ f : Nat → Nat, ∀ i j, DependsEdge w.steps i j → f j < f i)
    (hpend : ∀ s ∈ w.steps, s.status = WorkflowStatus.pending) :
    ∃ groups, (planExecutionGroups w).1 = .ok groups ∧
      groups.flatten.Perm (List.range w.steps.length) ∧
      (∀ (gi : Nat) (g : List Nat), groups[gi]? = some g →
        ∀ i ∈ g, ∀ (s : WorkflowStep), w.steps[i]? = some s →
        ∀ d ∈ s.depends_on, ∃ j, getStepIdx w.steps d = some j ∧
          ∃ (gj : Nat) (g2 : List Nat), gj < gi ∧ groups[gj]? = some g2 ∧
            j ∈ g2) := by
  rcases hacyc with ⟨f, hrank⟩
  have hclosed2 : ∀ s ∈ w.steps, ∀ d ∈ s.depends_on,
      ∃ j, getStepIdx w.steps d = some j := by
    intro s hs d hd
    have h2 := hclosed s hs d hd
    rcases hq : getStep w.steps d with _ | st
    · rw [hq] at h2
      exact Bool.noConfusion h2
    · rcases getStepIdx_of_getStep d w.steps st hq with ⟨j, hj, _⟩
      exact ⟨j, hj⟩
  have hstatus0 : ∀ i, i < w.steps.length → ∀ s, w.steps[i]? = some s →
      ((i ∈ List.range w.steps.length → s.status = .pending) ∧
       (i ∉ List.range w.steps.length → s.status = .completed)) := by
    intro i hilt s hs
    constructor
    · intro _
      apply hpend
      rcases List.getElem?_eq_some.mp hs with ⟨hlt, hget⟩
      rw [← hget]
      exact List.getElem_mem hlt
    · intro hnot
      exact absurd (List.mem_range.mpr hilt) hnot
  rcases planAux_ok_spec w.steps f hclosed2 hrank w.steps.length w.steps
    (List.range w.steps.length) (le_of_eq (List.length_range _))
    rfl (List.nodup_range _) (fun i hi => List.mem_range.mp hi) hstatus0 with
    ⟨groups, hok, hperm, hord⟩
  refine ⟨groups, ?_, hperm, ?_⟩
  · rcases hp : planAux w.steps.length w.steps (List.range w.steps.length) with
      ⟨r, steps2⟩
    rw [hp] at hok
    simp only at hok
    subst hok
    rw [planExecutionGroups, hp]
  · intro gi g hg i hig s hs d hd
    rcases hord gi g hg i hig s hs d hd with ⟨j, hidx, hdisj⟩
    refine ⟨j, hidx, ?_⟩
    rcases hdisj with hjnot | hearlier
    · exfalso
      apply hjnot
      rw [List.mem_range]
      rcases getStep_of_getStepIdx d w.steps j hidx with ⟨sj, hsj, _⟩
      rcases List.getElem?_eq_some.mp hsj with ⟨hlt, _⟩
      exact hlt
    · exact hearlier

/-- The three-step workflow of the repository's planner unit test: two
independent steps and one depending on both. -/
def planTestWorkflow : Workflow :=
  { id := "t", name := "t", steps := [
      { id := "step_1", pattern := "pattern_a" },
      { id := "step_2", pattern := "pattern_b" },
      { id := "step_3", pattern := "pattern_c", depends_on := ["step_1", "step_2"] }] }

/-- C1 witness: the concrete acyclic three-step workflow plans successfully
into groups covering each step once. -/
theorem plan_acyclic_complete_witness :
    ∃ groups, (planExecutionGroups planTestWorkflow).1 = .ok groups ∧
      groups.flatten.Perm (List.range planTestWorkflow.steps.length) := by
  have hrank : ∀ i j, DependsEdge planTestWorkflow.steps i j →
      (fun i => i) j < (fun i => i) i := by
    rintro i j ⟨s, hs, d, hd, hidx⟩
    have hi3 : i < 3 := by
      rcases List.getElem?_eq_some.mp hs with ⟨hlt, _⟩
      simpa using hlt
    interval_cases i
    · simp only [planTestWorkflow] at hs
      rw [List.getElem?_cons_zero] at hs
      cases hs
      cases hd
    · simp only [planTestWorkflow] at hs
      rw [List.getElem?_cons_succ, List.getElem?_cons_zero] at hs
      cases hs
      cases hd
    · simp only [planTestWorkflow] at hs
      rw [List.getElem?_cons_succ, List.getElem?_cons_succ,
        List.getElem?_cons_zero] at hs
      cases hs
      rcases hd with _ | ⟨_, hd2⟩
      · have hj : j = 0 := by
          have h2 : getStepIdx planTestWorkflow.steps "step_1" = some 0 := rfl
          rw [h2] at hidx
          injection hidx with h3
          exact h3.symm
        subst hj
        decide
      · rcases hd2 with _ | ⟨_, hd3⟩
        · have hj : j = 1 := by
            have h2 : getStepIdx planTestWorkflow.steps "step_2" = some 1 := rfl
            rw [h2] at hidx
            injection hidx with h3
            exact h3.symm
          subst hj
          decide
        · cases hd3
  rcases plan_acyclic_complete planTestWorkflow (by decide)
      ⟨fun i => i, hrank⟩ (by decide) with ⟨groups, hok, hperm, _⟩
  exact ⟨groups, hok, hperm⟩

/-! ## Lemmas towards the final-output and failure-propagation claims -/

/-- Invariant maintained by the engine: a `Completed` step always carries a
recorded result. -/
def CompletedHasResult (l : List WorkflowStep) : Prop :=
  ∀ s ∈ l, s.status = WorkflowStatus.completed → s.result.isSome = true

theorem chr_resetPending (l : List WorkflowStep) :
    CompletedHasResult (resetPending l) := by
  intro s hs hc
  rw [resetPending_eq_map] at hs
  rcases List.mem_map.mp hs with ⟨x, _, rfl⟩
  exact WorkflowStatus.noConfusion hc

theorem chr_setStatusAt_running :
    ∀ (l : List WorkflowStep) (i : Nat), CompletedHasResult l →
      CompletedHasResult (setStatusAt l i .running) := by
  intro l
  induction l with
  | nil => intro i h; exact h
  | cons a t ih =>
    intro i h
    cases i with
    | zero =>
      intro s hs hc
      rcases List.mem_cons.mp hs with rfl | hst
      · exact WorkflowStatus.noConfusion hc
      · exact h s (List.mem_cons_of_mem _ hst) hc
    | succ i2 =>
      intro s hs hc
      rcases List.mem_cons.mp hs with rfl | hst
      · exact h s (by simp) hc
      · exact ih i2 (fun x hx => h x (List.mem_cons_of_mem _ hx)) s hst hc

theorem chr_modifyById :
    ∀ (l : List WorkflowStep) (sid : String) (g : WorkflowStep → WorkflowStep),
      CompletedHasResult l →
      (∀ s, (g s).status = WorkflowStatus.completed → (g s).result.isSome = true) →
      CompletedHasResult (modifyById l sid g) := by
  intro l
  induction l with
  | nil => intro sid g h _; exact h
  | cons a t ih =>
    intro sid g h hg
    rw [modifyById]
    by_cases ha : (a.id == sid) = true
    · rw [if_pos ha]
      intro s hs hc
      rcases List.mem_cons.mp hs with rfl | hst
      · exact hg a hc
      · exact h s (List.mem_cons_of_mem _ hst) hc
    · rw [if_neg ha]
      intro s hs hc
      rcases List.mem_cons.mp hs with rfl | hst
      · exact h s (by simp) hc
      · exact ih sid g (fun x hx => h x (List.mem_cons_of_mem _ hx)) hg s hst hc

theorem chr_parDispatch (executor : Executor) (cfg : ExecutionConfig)
    (outputs : List (String × String)) :
    ∀ (gsteps : List Nat) (acc : GroupOutcome),
      CompletedHasResult acc.steps →
      CompletedHasResult ((gsteps.foldl (fun acc i =>
        match acc.steps[i]? with
        | none => acc
        | some s =>
          let input := resolveStepInput s outputs
          let r := executor s.pattern input cfg.provider cfg.model s.timeout
          { results := dictInsert acc.results s.id r,
            steps := setStatusAt acc.steps i .running,
            outputs := acc.outputs,
            calls := acc.calls ++ [⟨s.pattern, input, cfg.provider, cfg.model, s.timeout⟩] })
        acc).steps) := by
  intro gsteps
  induction gsteps with
  | nil => intro acc h; exact h
  | cons i t ih =>
    intro acc h
    rw [List.foldl_cons]
    rcases hq : acc.steps[i]? with _ | s
    · exact ih acc h
    · exact ih _ (chr_setStatusAt_running acc.steps i h)

theorem chr_seqDispatch (executor : Executor) (cfg : ExecutionConfig) :
    ∀ (gsteps : List Nat) (acc : GroupOutcome),
      CompletedHasResult acc.steps →
      CompletedHasResult ((gsteps.foldl (fun acc i =>
        match acc.steps[i]? with
        | none => acc
        | some s =>
          let input := resolveStepInput s acc.outputs
          let r := executor s.pattern input cfg.provider cfg.model s.timeout
          { results := dictInsert acc.results s.id r,
            steps := setStatusAt acc.steps i .running,
            outputs := if r.success then dictInsert acc.outputs s.id r.output
              else acc.outputs,
            calls := acc.calls ++ [⟨s.pattern, input, cfg.provider, cfg.model, s.timeout⟩] })
        acc).steps) := by
  intro gsteps
  induction gsteps with
  | nil => intro acc h; exact h
  | cons i t ih =>
    intro acc h
    rw [List.foldl_cons]
    rcases hq : acc.steps[i]? with _ | s
    · exact ih acc h
    · exact ih _ (chr_setStatusAt_running acc.steps i h)

theorem chr_execStepGroup (executor : Executor) (cfg : ExecutionConfig)
    (gsteps : List Nat) (steps : List WorkflowStep)
    (outputs : List (String × String)) (h : CompletedHasResult steps) :
    CompletedHasResult (execStepGroup executor cfg gsteps steps outputs).steps := by
  rcases gsteps with _ | ⟨i, _ | ⟨j, t⟩⟩
  · exact h
  · rcases hq : steps[i]? with _ | s
    · simp only [execStepGroup, hq]
      exact h
    · simp only [execStepGroup, hq]
      exact chr_setStatusAt_running steps i h
  · simp only [execStepGroup]
    split
    · exact chr_parDispatch executor cfg outputs (i :: j :: t) ⟨[], steps, outputs, []⟩ h
    · exact chr_seqDispatch executor cfg (i :: j :: t) ⟨[], steps, outputs, []⟩ h

theorem chr_applyGroupResults (coe : Bool) :
    ∀ (results : List (String × RunResult)) (steps : List WorkflowStep)
      (outputs : List (String × String)),
      CompletedHasResult steps →
      CompletedHasResult (applyGroupResults coe results steps outputs).2.1 := by
  intro results
  induction results with
  | nil => intro steps outputs h; exact h
  | cons kv rest ih =>
    intro steps outputs h
    rcases kv with ⟨step_id, r⟩
    rw [applyGroupResults]
    rcases hq : getStep steps step_id with _ | s0
    · exact ih steps outputs h
    · by_cases hsucc : r.success = true
      · rw [if_pos hsucc]
        apply ih
        apply chr_modifyById steps step_id _ h
        intro s _
        rfl
      · rw [if_neg hsucc]
        have hmod : CompletedHasResult (modifyById steps step_id
            (fun s => { s with result := some r, status := .failed, error := r.error })) := by
          apply chr_modifyById steps step_id _ h
          intro s hc
          exact WorkflowStatus.noConfusion hc
        by_cases hcoe : coe = true
        · rw [if_pos hcoe]
          exact ih _ outputs hmod
        · rw [if_neg hcoe]
          exact hmod

theorem chr_runGroups (executor : Executor) (cfg : ExecutionConfig) :
    ∀ (groups : List (List Nat)) (steps : List WorkflowStep)
      (outputs : List (String × String)) (calls : List CallRec) (k : Nat),
      CompletedHasResult steps →
      CompletedHasResult
        (runGroups executor cfg groups steps outputs calls k).2.1 := by
  intro groups
  induction groups with
  | nil => intro steps outputs calls k h; exact h
  | cons g gs ih =>
    intro steps outputs calls k h
    rw [runGroups]
    have hgo := chr_execStepGroup executor cfg g steps outputs h
    have happ := chr_applyGroupResults cfg.continue_on_error
      (execStepGroup executor cfg g steps outputs).results
      (execStepGroup executor cfg g steps outputs).steps
      (execStepGroup executor cfg g steps outputs).outputs hgo
    rcases hq : (applyGroupResults cfg.continue_on_error
        (execStepGroup executor cfg g steps outputs).results
        (execStepGroup executor cfg g steps outputs).steps
        (execStepGroup executor cfg g steps outputs).outputs) with ⟨ra, stepsA, outputsA⟩
    rw [hq] at happ
    cases ra with
    | error e => exact happ
    | ok u => exact ih stepsA outputsA _ _ happ

theorem find?_congr_mem {α : Type} (p q : α → Bool) :
    ∀ (l : List α), (∀ a ∈ l, p a = q a) → l.find? p = l.find? q := by
  intro l
  induction l with
  | nil => intro _; rfl
  | cons a t ih =>
    intro h
    have ha := h a (by simp)
    by_cases hp : p a = true
    · rw [@List.find?_cons_of_pos _ p a t hp,
        @List.find?_cons_of_pos _ q a t (by rw [← ha]; exact hp)]
    · rw [@List.find?_cons_of_neg _ p a t hp,
        @List.find?_cons_of_neg _ q a t (by rw [← ha]; exact hp)]
      exact ih (fun x hx => h x (List.mem_cons_of_mem _ hx))

/-- Under the engine invariant, the source's scan (which also requires a
recorded result) equals the spec's scan (first `Completed`, last to
first). -/
theorem finalOutputScan_eq_spec (steps : List WorkflowStep)
    (h : CompletedHasResult steps) :
    finalOutputScan steps = specFinalOutput steps := by
  have hcong : steps.reverse.find?
      (fun s => s.status == WorkflowStatus.completed && s.result.isSome) =
      steps.reverse.find? (fun s => s.status == WorkflowStatus.completed) := by
    apply find?_congr_mem
    intro a ha
    have hmem : a ∈ steps := List.mem_reverse.mp ha
    by_cases hc : a.status = WorkflowStatus.completed
    · rw [hc, h a hmem hc]
      rfl
    · have hb : (a.status == WorkflowStatus.completed) = false := by
        cases hq : a.status == WorkflowStatus.completed
        · rfl
        · exact absurd (beq_iff_eq.mp hq) hc
      rw [hb]
      rfl
  rw [finalOutputScan, specFinalOutput]
  by_cases hemp : steps.isEmpty
  · rw [if_pos hemp]
    have : steps = [] := List.isEmpty_iff.mp hemp
    subst this
    rfl
  · rw [if_neg hemp, hcong]
    rcases hq : steps.reverse.find? (fun s => s.status == WorkflowStatus.completed) with _ | s
    · simp [hq]
    · simp [hq]

/-- `execute_workflow` when planning succeeds but a step failure aborts the
run. -/
theorem executeWorkflow_run_error_eq (executor : Executor) (w : Workflow)
    (input_text : String) (t0 t1 : Int) (groups : List (List Nat))
    (stepsP : List WorkflowStep) (e : String) (stepsF : List WorkflowStep)
    (outputsF : List (String × String)) (calls : List CallRec) (k : Nat)
    (hp : planExecutionGroups
        { w with status := WorkflowStatus.running, start_time := some t0 } =
      (.ok groups, stepsP))
    (hr : runGroups executor w.config groups stepsP [("_initial", input_text)] [] 0 =
      (.error e, stepsF, outputsF, calls, k)) :
    executeWorkflow executor w input_text t0 t1 =
      (⟨w.id, false, none, some e, stepResultsDict stepsF, t1 - t0,
        stepsF.length, (stepsByStatus stepsF .completed).length,
        (stepsByStatus stepsF .failed).length⟩,
       { w with
         steps := stepsF
         status := WorkflowStatus.failed
         start_time := some t0
         end_time := some t1 },
       calls, k) := by
  simp only [executeWorkflow, hp, hr]

/-- `execute_workflow` when planning succeeds and every group completes. -/
theorem executeWorkflow_run_ok_eq (executor : Executor) (w : Workflow)
    (input_text : String) (t0 t1 : Int) (groups : List (List Nat))
    (stepsP : List WorkflowStep) (stepsF : List WorkflowStep)
    (outputsF : List (String × String)) (calls : List CallRec) (k : Nat)
    (hp : planExecutionGroups
        { w with status := WorkflowStatus.running, start_time := some t0 } =
      (.ok groups, stepsP))
    (hr : runGroups executor w.config groups stepsP [("_initial", input_text)] [] 0 =
      (.ok (), stepsF, outputsF, calls, k)) :
    executeWorkflow executor w input_text t0 t1 =
      (⟨w.id, true, finalOutputScan stepsF, none, stepResultsDict stepsF,
        t1 - t0, stepsF.length, (stepsByStatus stepsF .completed).length,
        (stepsByStatus stepsF .failed).length⟩,
       { w with
         steps := stepsF
         status := WorkflowStatus.completed
         start_time := some t0
         end_time := some t1 },
       calls, k) := by
  simp only [executeWorkflow, hp, hr]

/-- Steps returned by a successful plan are all `Pending` (the reset),
hence satisfy the engine invariant. -/
theorem chr_of_plan_ok (w : Workflow) (groups : List (List Nat))
    (stepsP : List WorkflowStep)
    (hp : planExecutionGroups w = (.ok groups, stepsP)) :
    CompletedHasResult stepsP := by
  rcases hq : planAux w.steps.length w.steps (List.range w.steps.length) with ⟨r, steps2⟩
  rw [planExecutionGroups, hq] at hp
  cases r with
  | ok g2 =>
    have h2 := congrArg Prod.snd hp
    simp only at h2
    rw [← h2]
    exact chr_resetPending steps2
  | error e =>
    have h2 := congrArg Prod.fst hp
    simp only at h2
    exact Except.noConfusion h2

/-- C3 counterexample input: step 0 succeeds with "A", step 1 fails. -/
def abortStepA : WorkflowStep := { id := "step_0", pattern := "pa" }

/-- Failing second step of the abort counterexample workflow. -/
def abortStepB : WorkflowStep :=
  { id := "step_1", pattern := "pb", depends_on := ["step_0"] }

/-- The two-step workflow aborted by the failure of its second step. -/
def abortWorkflow : Workflow :=
  { id := "w", name := "w", steps := [abortStepA, abortStepB] }

/-- Executor for the abort scenario: pattern `pa` succeeds with output
`"A"`, everything else fails. -/
def abortExecutor : Executor := fun p _ _ _ _ =>
  if p == "pa" then ⟨true, "A", none, 1, 0⟩ else ⟨false, "", some "boom", 1, 1⟩

/-- C3 counterexample: a run aborted by a step failure reports final output
`None` even though a `Completed` step with output `"A"` exists, so the
last-to-first `Completed` scan does not describe the aborted path. -/
theorem final_output_abort_counterexample :
    (executeWorkflow abortExecutor abortWorkflow "init" 0 1).1.success = false ∧
    (executeWorkflow abortExecutor abortWorkflow "init" 0 1).1.final_output = none ∧
    specFinalOutput (executeWorkflow abortExecutor abortWorkflow "init" 0 1).2.1.steps =
      some "A" :=
  ⟨rfl, rfl, rfl⟩

/-- C3 (amended): when the run completes all groups (success = true), the
reported final output equals the spec's scan — the output of the first
`Completed` step found scanning the steps in declaration order from last to
first, `None` when no step is `Completed`; when the run is aborted
(success = false), the reported final output is always `None`, regardless
of completed steps. -/
theorem execute_final_output_rule (w : Workflow) (executor : Executor)
    (input_text : String) (t0 t1 : Int) :
    ((executeWorkflow executor w input_text t0 t1).1.success = true →
      (executeWorkflow executor w input_text t0 t1).1.final_output =
        specFinalOutput (executeWorkflow executor w input_text t0 t1).2.1.steps) ∧
    ((executeWorkflow executor w input_text t0 t1).1.success = false →
      (executeWorkflow executor w input_text t0 t1).1.final_output = none) := by
  rcases hp : planExecutionGroups
      { w with status := WorkflowStatus.running, start_time := some t0 } with ⟨r, stepsP⟩
  cases r with
  | error e =>
    rw [executeWorkflow_plan_error_eq executor w input_text t0 t1 e stepsP hp]
    exact ⟨fun hc => Bool.noConfusion hc, fun _ => rfl⟩
  | ok groups =>
    rcases hr : runGroups executor w.config groups stepsP
        [("_initial", input_text)] [] 0 with ⟨ru, stepsF, outputsF, calls, k⟩
    cases ru with
    | error e =>
      rw [executeWorkflow_run_error_eq executor w input_text t0 t1 groups
        stepsP e stepsF outputsF calls k hp hr]
      exact ⟨fun hc => Bool.noConfusion hc, fun _ => rfl⟩
    | ok u =>
      cases u
      rw [executeWorkflow_run_ok_eq executor w input_text t0 t1 groups
        stepsP stepsF outputsF calls k hp hr]
      refine ⟨fun _ => ?_, fun hc => Bool.noConfusion hc⟩
      apply finalOutputScan_eq_spec
      have hchr0 : CompletedHasResult stepsP := chr_of_plan_ok _ groups stepsP hp
      have h2 := chr_runGroups executor w.config groups stepsP
        [("_initial", input_text)] [] 0 hchr0
      rw [hr] at h2
      exact h2

/-- C3 witness for the amended theorem: a successful two-step run whose
final output is the last completed step's output, and the aborted run
reporting `None`. -/
theorem execute_final_output_rule_witness :
    (executeWorkflow constExecutor abortWorkflow "init" 0 1).1.final_output =
      specFinalOutput (executeWorkflow constExecutor abortWorkflow "init" 0 1).2.1.steps ∧
    (executeWorkflow abortExecutor abortWorkflow "init" 0 1).1.final_output = none :=
  ⟨(execute_final_output_rule abortWorkflow constExecutor "init" 0 1).1 rfl,
   (execute_final_output_rule abortWorkflow abortExecutor "init" 0 1).2 rfl⟩

/-! ## Frame and preservation lemmas for the failure-propagation claim -/

theorem modifyById_getElem_ne :
    ∀ (l : List WorkflowStep) (sid : String) (g : WorkflowStep → WorkflowStep)
      (i : Nat) (s : WorkflowStep), l[i]? = some s → (s.id == sid) = false →
      (modifyById l sid g)[i]? = some s := by
  intro l
  induction l with
  | nil =>
    intro sid g i s h _
    rw [List.getElem?_nil] at h
    exact Option.noConfusion h
  | cons a t ih =>
    intro sid g i s h hne
    rw [modifyById]
    cases i with
    | zero =>
      rw [List.getElem?_cons_zero] at h
      cases h
      rw [if_neg (by rw [hne]; exact Bool.noConfusion)]
      exact List.getElem?_cons_zero
    | succ i2 =>
      rw [List.getElem?_cons_succ] at h
      by_cases ha : (a.id == sid) = true
      · rw [if_pos ha, List.getElem?_cons_succ]
        exact h
      · rw [if_neg ha, List.getElem?_cons_succ]
        exact ih sid g i2 s h hne

theorem modifyById_map_id :
    ∀ (l : List WorkflowStep) (sid : String) (g : WorkflowStep → WorkflowStep),
      (∀ s, (g s).id = s.id) →
      (modifyById l sid g).map (fun s => s.id) = l.map (fun s => s.id) := by
  intro l
  induction l with
  | nil => intro _ _ _; rfl
  | cons a t ih =>
    intro sid g hg
    rw [modifyById]
    by_cases ha : (a.id == sid) = true
    · rw [if_pos ha, List.map_cons, List.map_cons, hg a]
    · rw [if_neg ha, List.map_cons, List.map_cons, ih sid g hg]

theorem map_id_length (l1 l2 : List WorkflowStep)
    (h : l1.map (fun s => s.id) = l2.map (fun s => s.id)) :
    l1.length = l2.length := by
  have h2 := congrArg List.length h
  simpa using h2

/-- Dispatch of one group touches no step outside the group. -/
theorem parDispatch_fold_getElem_notin (executor : Executor)
    (cfg : ExecutionConfig) (outputs : List (String × String)) :
    ∀ (gsteps : List Nat) (acc : GroupOutcome) (i : Nat), i ∉ gsteps →
      ((gsteps.foldl (fun acc i =>
        match acc.steps[i]? with
        | none => acc
        | some s =>
          let input := resolveStepInput s outputs
          let r := executor s.pattern input cfg.provider cfg.model s.timeout
          { results := dictInsert acc.results s.id r,
            steps := setStatusAt acc.steps i .running,
            outputs := acc.outputs,
            calls := acc.calls ++ [⟨s.pattern, input, cfg.provider, cfg.model, s.timeout⟩] })
        acc).steps)[i]? = acc.steps[i]? := by
  intro gsteps
  induction gsteps with
  | nil => intro acc i _; rfl
  | cons j t ih =>
    intro acc i hi
    rw [List.foldl_cons]
    have hij : i ≠ j := fun h => hi (by simp [h])
    rcases hq : acc.steps[j]? with _ | s
    · exact ih acc i (fun h => hi (List.mem_cons_of_mem _ h))
    · rw [ih _ i (fun h => hi (List.mem_cons_of_mem _ h))]
      exact setStatusAt_getElem_ne acc.steps j .running i hij

theorem seqDispatch_fold_getElem_notin (executor : Executor)
    (cfg : ExecutionConfig) :
    ∀ (gsteps : List Nat) (acc : GroupOutcome) (i : Nat), i ∉ gsteps →
      ((gsteps.foldl (fun acc i =>
        match acc.steps[i]? with
        | none => acc
        | some s =>
          let input := resolveStepInput s acc.outputs
          let r := executor s.pattern input cfg.provider cfg.model s.timeout
          { results := dictInsert acc.results s.id r,
            steps := setStatusAt acc.steps i .running,
            outputs := if r.success then dictInsert acc.outputs s.id r.output
              else acc.outputs,
            calls := acc.calls ++ [⟨s.pattern, input, cfg.provider, cfg.model, s.timeout⟩] })
        acc).steps)[i]? = acc.steps[i]? := by
  intro gsteps
  induction gsteps with
  | nil => intro acc i _; rfl
  | cons j t ih =>
    intro acc i hi
    rw [List.foldl_cons]
    have hij : i ≠ j := fun h => hi (by simp [h])
    rcases hq : acc.steps[j]? with _ | s
    · exact ih acc i (fun h => hi (List.mem_cons_of_mem _ h))
    · rw [ih _ i (fun h => hi (List.mem_cons_of_mem _ h))]
      exact setStatusAt_getElem_ne acc.steps j .running i hij

theorem execStepGroup_getElem_notin (executor : Executor)
    (cfg : ExecutionConfig) (gsteps : List Nat) (steps : List WorkflowStep)
    (outputs : List (String × String)) (i : Nat) (hi : i ∉ gsteps) :
    (execStepGroup executor cfg gsteps steps outputs).steps[i]? = steps[i]? := by
  rcases gsteps with _ | ⟨a, _ | ⟨b, t⟩⟩
  · rfl
  · rcases hq : steps[a]? with _ | s
    · simp only [execStepGroup, hq]
    · simp only [execStepGroup, hq]
      exact setStatusAt_getElem_ne steps a .running i (fun h => hi (by simp [h]))
  · simp only [execStepGroup]
    split
    · exact parDispatch_fold_getElem_notin executor cfg outputs (a :: b :: t)
        ⟨[], steps, outputs, []⟩ i hi
    · exact seqDispatch_fold_getElem_notin executor cfg (a :: b :: t)
        ⟨[], steps, outputs, []⟩ i hi

theorem parDispatch_fold_map_strip (executor : Executor)
    (cfg : ExecutionConfig) (outputs : List (String × String)) :
    ∀ (gsteps : List Nat) (acc : GroupOutcome),
      ((gsteps.foldl (fun acc i =>
        match acc.steps[i]? with
        | none => acc
        | some s =>
          let input := resolveStepInput s outputs
          let r := executor s.pattern input cfg.provider cfg.model s.timeout
          { results := dictInsert acc.results s.id r,
            steps := setStatusAt acc.steps i .running,
            outputs := acc.outputs,
            calls := acc.calls ++ [⟨s.pattern, input, cfg.provider, cfg.model, s.timeout⟩] })
        acc).steps).map stripStatus = acc.steps.map stripStatus := by
  intro gsteps
  induction gsteps with
  | nil => intro acc; rfl
  | cons j t ih =>
    intro acc
    rw [List.foldl_cons]
    rcases hq : acc.steps[j]? with _ | s
    · exact ih acc
    · rw [ih _, setStatusAt_map_strip]

theorem seqDispatch_fold_map_strip (executor : Executor)
    (cfg : ExecutionConfig) :
    ∀ (gsteps : List Nat) (acc : GroupOutcome),
      ((gsteps.foldl (fun acc i =>
        match acc.steps[i]? with
        | none => acc
        | some s =>
          let input := resolveStepInput s acc.outputs
          let r := executor s.pattern input cfg.provider cfg.model s.timeout
          { results := dictInsert acc.results s.id r,
            steps := setStatusAt acc.steps i .running,
            outputs := if r.success then dictInsert acc.outputs s.id r.output
              else acc.outputs,
            calls := acc.calls ++ [⟨s.pattern, input, cfg.provider, cfg.model, s.timeout⟩] })
        acc).steps).map stripStatus = acc.steps.map stripStatus := by
  intro gsteps
  induction gsteps with
  | nil => intro acc; rfl
  | cons j t ih =>
    intro acc
    rw [List.foldl_cons]
    rcases hq : acc.steps[j]? with _ | s
    · exact ih acc
    · rw [ih _, setStatusAt_map_strip]

theorem execStepGroup_map_strip (executor : Executor) (cfg : ExecutionConfig)
    (gsteps : List Nat) (steps : List WorkflowStep)
    (outputs : List (String × String)) :
    (execStepGroup executor cfg gsteps steps outputs).steps.map stripStatus =
      steps.map stripStatus := by
  rcases gsteps with _ | ⟨a, _ | ⟨b, t⟩⟩
  · rfl
  · rcases hq : steps[a]? with _ | s
    · simp only [execStepGroup, hq]
    · simp only [execStepGroup, hq]
      exact setStatusAt_map_strip steps a .running
  · simp only [execStepGroup]
    split
    · exact parDispatch_fold_map_strip executor cfg outputs (a :: b :: t)
        ⟨[], steps, outputs, []⟩
    · exact seqDispatch_fold_map_strip executor cfg (a :: b :: t)
        ⟨[], steps, outputs, []⟩

theorem applyGroupResults_map_id (coe : Bool) :
    ∀ (results : List (String × RunResult)) (steps : List WorkflowStep)
      (outputs : List (String × String)),
      (applyGroupResults coe results steps outputs).2.1.map (fun s => s.id) =
        steps.map (fun s => s.id) := by
  intro results
  induction results with
  | nil => intro steps outputs; rfl
  | cons kv rest ih =>
    intro steps outputs
    rcases kv with ⟨step_id, r⟩
    rw [applyGroupResults]
    rcases hq : getStep steps step_id with _ | s0
    · exact ih steps outputs
    · by_cases hsucc : r.success = true
      · rw [if_pos hsucc, ih, modifyById_map_id]
        intro s
        rfl
      · rw [if_neg hsucc]
        by_cases hcoe : coe = true
        · rw [if_pos hcoe, ih, modifyById_map_id]
          intro s
          rfl
        · rw [if_neg hcoe]
          show (modifyById steps step_id _).map (fun s => s.id) = _
          rw [modifyById_map_id]
          intro s
          rfl

theorem applyGroupResults_frame (coe : Bool) :
    ∀ (results : List (String × RunResult)) (steps : List WorkflowStep)
      (outputs : List (String × String)) (i : Nat) (s : WorkflowStep),
      steps[i]? = some s →
      (∀ kv ∈ results, (s.id == kv.1) = false) →
      (applyGroupResults coe results steps outputs).2.1[i]? = some s := by
  intro results
  induction results with
  | nil => intro steps outputs i s h _; exact h
  | cons kv rest ih =>
    intro steps outputs i s h hk
    rcases kv with ⟨step_id, r⟩
    have hne : (s.id == step_id) = false := hk (step_id, r) (by simp)
    have htail : ∀ kv2 ∈ rest, (s.id == kv2.1) = false :=
      fun kv2 h2 => hk kv2 (List.mem_cons_of_mem _ h2)
    rw [applyGroupResults]
    rcases hq : getStep steps step_id with _ | s0
    · exact ih steps outputs i s h htail
    · by_cases hsucc : r.success = true
      · rw [if_pos hsucc]
        exact ih _ _ i s (modifyById_getElem_ne steps step_id _ i s h hne) htail
      · rw [if_neg hsucc]
        by_cases hcoe : coe = true
        · rw [if_pos hcoe]
          exact ih _ _ i s (modifyById_getElem_ne steps step_id _ i s h hne) htail
        · rw [if_neg hcoe]
          exact modifyById_getElem_ne steps step_id _ i s h hne

theorem dictInsert_mem {α : Type} :
    ∀ (m : List (String × α)) (k : String) (v : α) (kv : String × α),
      kv ∈ dictInsert m k v → kv ∈ m ∨ kv.1 = k := by
  intro m
  induction m with
  | nil =>
    intro k v kv h
    simp only [dictInsert, List.mem_singleton] at h
    subst h
    exact Or.inr rfl
  | cons kv0 rest ih =>
    intro k v kv h
    rcases kv0 with ⟨k0, v0⟩
    rw [dictInsert] at h
    by_cases hk : (k0 == k) = true
    · rw [if_pos hk] at h
      rcases List.mem_cons.mp h with rfl | hrest
      · exact Or.inr (beq_iff_eq.mp hk)
      · exact Or.inl (List.mem_cons_of_mem _ hrest)
    · rw [if_neg hk] at h
      rcases List.mem_cons.mp h with rfl | hrest
      · exact Or.inl (by simp)
      · rcases ih k v kv hrest with h2 | h2
        · exact Or.inl (List.mem_cons_of_mem _ h2)
        · exact Or.inr h2

theorem dictGet_insert_self {α : Type} :
    ∀ (m : List (String × α)) (k : String) (v : α),
      dictGet (dictInsert m k v) k = some v := by
  intro m
  induction m with
  | nil =>
    intro k v
    show Option.map (fun kv => kv.2) (List.find? (fun kv => kv.1 == k) [(k, v)]) =
      some v
    rw [@List.find?_cons_of_pos _ (fun kv => kv.1 == k) (k, v) []
      (by simp)]
    rfl
  | cons kv0 rest ih =>
    intro k v
    rcases kv0 with ⟨k0, v0⟩
    rw [dictInsert]
    by_cases hk : (k0 == k) = true
    · rw [if_pos hk, dictGet,
        @List.find?_cons_of_pos _ (fun kv => kv.1 == k) (k0, v) rest hk]
      rfl
    · rw [if_neg hk, dictGet,
        @List.find?_cons_of_neg _ (fun kv => kv.1 == k) (k0, v0)
          (dictInsert rest k v) hk]
      exact ih k v

theorem dictGet_insert_ne {α : Type} :
    ∀ (m : List (String × α)) (k2 k : String) (v : α), (k2 == k) = false →
      dictGet (dictInsert m k2 v) k = dictGet m k := by
  intro m
  induction m with
  | nil =>
    intro k2 k v hne
    show Option.map (fun kv => kv.2) (List.find? (fun kv => kv.1 == k) [(k2, v)]) =
      dictGet [] k
    rw [@List.find?_cons_of_neg _ (fun kv => kv.1 == k) (k2, v) []
      (by simp [hne])]
    rfl
  | cons kv0 rest ih =>
    intro k2 k v hne
    rcases kv0 with ⟨k0, v0⟩
    rw [dictInsert]
    by_cases hk : (k0 == k2) = true
    · rw [if_pos hk]
      have hk0 : k0 = k2 := beq_iff_eq.mp hk
      subst hk0
      rw [dictGet, dictGet,
        @List.find?_cons_of_neg _ (fun kv => kv.1 == k) (k0, v) rest
          (by simp [hne]),
        @List.find?_cons_of_neg _ (fun kv => kv.1 == k) (k0, v0) rest
          (by simp [hne])]
    · rw [if_neg hk]
      by_cases hk0 : (k0 == k) = true
      · rw [dictGet, dictGet,
          @List.find?_cons_of_pos _ (fun kv => kv.1 == k) (k0, v0)
            (dictInsert rest k2 v) hk0,
          @List.find?_cons_of_pos _ (fun kv => kv.1 == k) (k0, v0) rest hk0]
      · rw [dictGet, dictGet,
          @List.find?_cons_of_neg _ (fun kv => kv.1 == k) (k0, v0)
            (dictInsert rest k2 v) hk0,
          @List.find?_cons_of_neg _ (fun kv => kv.1 == k) (k0, v0) rest hk0]
        exact ih k2 k v hne

theorem stepResultsDict_fold_preserve :
    ∀ (t : List WorkflowStep) (m : List (String × Option RunResult)) (k : String),
      (∀ s2 ∈ t, (s2.id == k) = false) →
      dictGet (t.foldl (fun m s => dictInsert m s.id s.result) m) k = dictGet m k := by
  intro t
  induction t with
  | nil => intro m k _; rfl
  | cons a rest ih =>
    intro m k h
    rw [List.foldl_cons]
    rw [ih _ k (fun s2 h2 => h s2 (List.mem_cons_of_mem _ h2))]
    exact dictGet_insert_ne m a.id k a.result (h a (by simp))

theorem stepResultsDict_fold_lookup :
    ∀ (l : List WorkflowStep) (m : List (String × Option RunResult)),
      ((l.map (fun s => s.id)).Nodup) →
      ∀ s ∈ l, dictGet (l.foldl (fun m s => dictInsert m s.id s.result) m) s.id =
        some s.result := by
  intro l
  induction l with
  | nil => intro m _ s hs; cases hs
  | cons a t ih =>
    intro m hnd s hs
    rw [List.map_cons, List.nodup_cons] at hnd
    rw [List.foldl_cons]
    rcases List.mem_cons.mp hs with rfl | hst
    · rw [stepResultsDict_fold_preserve t _ s.id ?_]
      · exact dictGet_insert_self m s.id s.result
      · intro s2 h2
        rw [beq_eq_false_iff_ne]
        intro heq
        exact hnd.1 (by rw [← heq]; exact List.mem_map.mpr ⟨s2, h2, rfl⟩)
    · exact ih _ hnd.2 s hst

/-- With unique ids, the returned step-results dict maps every step's id to
exactly that step's recorded result. -/
theorem stepResultsDict_lookup (l : List WorkflowStep)
    (hnd : (l.map (fun s => s.id)).Nodup) :
    ∀ s ∈ l, dictGet (stepResultsDict l) s.id = some s.result :=
  stepResultsDict_fold_lookup l [] hnd

theorem parDispatch_fold_calls (executor : Executor) (cfg : ExecutionConfig)
    (outputs : List (String × String)) :
    ∀ (gsteps : List Nat) (acc : GroupOutcome),
      (∀ j ∈ gsteps, j < acc.steps.length) →
      ((gsteps.foldl (fun acc i =>
        match acc.steps[i]? with
        | none => acc
        | some s =>
          let input := resolveStepInput s outputs
          let r := executor s.pattern input cfg.provider cfg.model s.timeout
          { results := dictInsert acc.results s.id r,
            steps := setStatusAt acc.steps i .running,
            outputs := acc.outputs,
            calls := acc.calls ++ [⟨s.pattern, input, cfg.provider, cfg.model, s.timeout⟩] })
        acc).calls).length = acc.calls.length + gsteps.length := by
  intro gsteps
  induction gsteps with
  | nil => intro acc _; rfl
  | cons j t ih =>
    intro acc hv
    rw [List.foldl_cons]
    rcases hq : acc.steps[j]? with _ | s
    · rw [List.getElem?_eq_none_iff] at hq
      have := hv j (by simp)
      omega
    · have hlen2 : (setStatusAt acc.steps j .running).length = acc.steps.length :=
        length_eq_of_strip _ _ (setStatusAt_map_strip acc.steps j .running)
      rw [ih _ (by
        intro j2 hj2
        rw [hlen2]
        exact hv j2 (List.mem_cons_of_mem _ hj2))]
      simp only [List.length_append, List.length_cons, List.length_nil]
      omega

theorem seqDispatch_fold_calls (executor : Executor) (cfg : ExecutionConfig) :
    ∀ (gsteps : List Nat) (acc : GroupOutcome),
      (∀ j ∈ gsteps, j < acc.steps.length) →
      ((gsteps.foldl (fun acc i =>
        match acc.steps[i]? with
        | none => acc
        | some s =>
          let input := resolveStepInput s acc.outputs
          let r := executor s.pattern input cfg.provider cfg.model s.timeout
          { results := dictInsert acc.results s.id r,
            steps := setStatusAt acc.steps i .running,
            outputs := if r.success then dictInsert acc.outputs s.id r.output
              else acc.outputs,
            calls := acc.calls ++ [⟨s.pattern, input, cfg.provider, cfg.model, s.timeout⟩] })
        acc).calls).length = acc.calls.length + gsteps.length := by
  intro gsteps
  induction gsteps with
  | nil => intro acc _; rfl
  | cons j t ih =>
    intro acc hv
    rw [List.foldl_cons]
    rcases hq : acc.steps[j]? with _ | s
    · rw [List.getElem?_eq_none_iff] at hq
      have := hv j (by simp)
      omega
    · have hlen2 : (setStatusAt acc.steps j .running).length = acc.steps.length :=
        length_eq_of_strip _ _ (setStatusAt_map_strip acc.steps j .running)
      rw [ih _ (by
        intro j2 hj2
        rw [hlen2]
        exact hv j2 (List.mem_cons_of_mem _ hj2))]
      simp only [List.length_append, List.length_cons, List.length_nil]
      omega

theorem execStepGroup_calls_length (executor : Executor) (cfg : ExecutionConfig)
    (gsteps : List Nat) (steps : List WorkflowStep)
    (outputs : List (String × String))
    (hv : ∀ j ∈ gsteps, j < steps.length) :
    (execStepGroup executor cfg gsteps steps outputs).calls.length =
      gsteps.length := by
  rcases gsteps with _ | ⟨a, _ | ⟨b, t⟩⟩
  · rfl
  · rcases hq : steps[a]? with _ | s
    · rw [List.getElem?_eq_none_iff] at hq
      have := hv a (by simp)
      omega
    · simp only [execStepGroup, hq]
      rfl
  · simp only [execStepGroup]
    split
    · have h2 := parDispatch_fold_calls executor cfg outputs (a :: b :: t)
        ⟨[], steps, outputs, []⟩ hv
      simpa using h2
    · have h2 := seqDispatch_fold_calls executor cfg (a :: b :: t)
        ⟨[], steps, outputs, []⟩ hv
      simpa using h2

theorem parDispatch_fold_keys (executor : Executor) (cfg : ExecutionConfig)
    (outputs : List (String × String)) (steps0 : List WorkflowStep)
    (Q : String → Prop) :
    ∀ (gsteps : List Nat) (acc : GroupOutcome),
      acc.steps.map stripStatus = steps0.map stripStatus →
      (∀ kv ∈ acc.results, Q kv.1) →
      (∀ j ∈ gsteps, ∀ sj, steps0[j]? = some sj → Q sj.id) →
      ∀ kv ∈ (gsteps.foldl (fun acc i =>
        match acc.steps[i]? with
        | none => acc
        | some s =>
          let input := resolveStepInput s outputs
          let r := executor s.pattern input cfg.provider cfg.model s.timeout
          { results := dictInsert acc.results s.id r,
            steps := setStatusAt acc.steps i .running,
            outputs := acc.outputs,
            calls := acc.calls ++ [⟨s.pattern, input, cfg.provider, cfg.model, s.timeout⟩] })
        acc).results, Q kv.1 := by
  intro gsteps
  induction gsteps with
  | nil => intro acc _ hres _; exact hres
  | cons j t ih =>
    intro acc hstrip hres hall
    rw [List.foldl_cons]
    rcases hq : acc.steps[j]? with _ | s
    · exact ih acc hstrip hres
        (fun j2 hj2 => hall j2 (List.mem_cons_of_mem _ hj2))
    · have hsid : Q s.id := by
        have h2 := getElem?_strip_eq acc.steps steps0 hstrip j
        rw [hq] at h2
        rcases hq0 : steps0[j]? with _ | sj
        · rw [hq0] at h2
          exact Option.noConfusion h2
        · rw [hq0] at h2
          simp only [Option.map_some'] at h2
          injection h2 with h3
          have hid : s.id = sj.id := congrArg (fun x => x.id) h3
          rw [hid]
          exact hall j (by simp) sj hq0
      apply ih _ (by rw [setStatusAt_map_strip]; exact hstrip) ?_
        (fun j2 hj2 => hall j2 (List.mem_cons_of_mem _ hj2))
      intro kv hkv
      rcases dictInsert_mem acc.results s.id _ kv hkv with h2 | h2
      · exact hres kv h2
      · rw [h2]
        exact hsid

theorem seqDispatch_fold_keys (executor : Executor) (cfg : ExecutionConfig)
    (steps0 : List WorkflowStep) (Q : String → Prop) :
    ∀ (gsteps : List Nat) (acc : GroupOutcome),
      acc.steps.map stripStatus = steps0.map stripStatus →
      (∀ kv ∈ acc.results, Q kv.1) →
      (∀ j ∈ gsteps, ∀ sj, steps0[j]? = some sj → Q sj.id) →
      ∀ kv ∈ (gsteps.foldl (fun acc i =>
        match acc.steps[i]? with
        | none => acc
        | some s =>
          let input := resolveStepInput s acc.outputs
          let r := executor s.pattern input cfg.provider cfg.model s.timeout
          { results := dictInsert acc.results s.id r,
            steps := setStatusAt acc.steps i .running,
            outputs := if r.success then dictInsert acc.outputs s.id r.output
              else acc.outputs,
            calls := acc.calls ++ [⟨s.pattern, input, cfg.provider, cfg.model, s.timeout⟩] })
        acc).results, Q kv.1 := by
  intro gsteps
  induction gsteps with
  | nil => intro acc _ hres _; exact hres
  | cons j t ih =>
    intro acc hstrip hres hall
    rw [List.foldl_cons]
    rcases hq : acc.steps[j]? with _ | s
    · exact ih acc hstrip hres
        (fun j2 hj2 => hall j2 (List.mem_cons_of_mem _ hj2))
    · have hsid : Q s.id := by
        have h2 := getElem?_strip_eq acc.steps steps0 hstrip j
        rw [hq] at h2
        rcases hq0 : steps0[j]? with _ | sj
        · rw [hq0] at h2
          exact Option.noConfusion h2
        · rw [hq0] at h2
          simp only [Option.map_some'] at h2
          injection h2 with h3
          have hid : s.id = sj.id := congrArg (fun x => x.id) h3
          rw [hid]
          exact hall j (by simp) sj hq0
      apply ih _ (by rw [setStatusAt_map_strip]; exact hstrip) ?_
        (fun j2 hj2 => hall j2 (List.mem_cons_of_mem _ hj2))
      intro kv hkv
      rcases dictInsert_mem acc.results s.id _ kv hkv with h2 | h2
      · exact hres kv h2
      · rw [h2]
        exact hsid

/-- Every key of a group's result dict is the id of a step of that group. -/
theorem execStepGroup_keys (executor : Executor) (cfg : ExecutionConfig)
    (gsteps : List Nat) (steps : List WorkflowStep)
    (outputs : List (String × String)) :
    ∀ kv ∈ (execStepGroup executor cfg gsteps steps outputs).results,
      ∃ j ∈ gsteps, ∃ sj, steps[j]? = some sj ∧ kv.1 = sj.id := by
  rcases gsteps with _ | ⟨a, _ | ⟨b, t⟩⟩
  · intro kv hkv
    cases hkv
  · rcases hq : steps[a]? with _ | s
    · simp only [execStepGroup, hq]
      intro kv hkv
      cases hkv
    · simp only [execStepGroup, hq]
      intro kv hkv
      rcases List.mem_singleton.mp hkv with rfl
      exact ⟨a, by simp, s, hq, rfl⟩
  · simp only [execStepGroup]
    split
    · exact parDispatch_fold_keys executor cfg outputs steps
        (fun k => ∃ j ∈ (a :: b :: t), ∃ sj, steps[j]? = some sj ∧ k = sj.id)
        (a :: b :: t) ⟨[], steps, outputs, []⟩ rfl (fun kv hkv => by cases hkv)
        (fun j hj sj hsj => ⟨j, hj, sj, hsj, rfl⟩)
    · exact seqDispatch_fold_keys executor cfg steps
        (fun k => ∃ j ∈ (a :: b :: t), ∃ sj, steps[j]? = some sj ∧ k = sj.id)
        (a :: b :: t) ⟨[], steps, outputs, []⟩ rfl (fun kv hkv => by cases hkv)
        (fun j hj sj hsj => ⟨j, hj, sj, hsj, rfl⟩)

theorem ids_ne_of_nodup (steps : List WorkflowStep)
    (hnd : (steps.map (fun s => s.id)).Nodup) (i j : Nat)
    (si sj : WorkflowStep) (hi : steps[i]? = some si) (hj : steps[j]? = some sj)
    (hne : i ≠ j) : (si.id == sj.id) = false := by
  rw [beq_eq_false_iff_ne]
  intro heq
  apply hne
  rcases List.getElem?_eq_some.mp hi with ⟨hilt, higet⟩
  rcases List.getElem?_eq_some.mp hj with ⟨hjlt, hjget⟩
  have hilt2 : i < (steps.map (fun s => s.id)).length := by simpa using hilt
  have hjlt2 : j < (steps.map (fun s => s.id)).length := by simpa using hjlt
  have h1 : (steps.map (fun s => s.id))[i] = (steps.map (fun s => s.id))[j] := by
    rw [List.getElem_map, List.getElem_map, higet, hjget]
    exact heq
  exact (hnd.getElem_inj_iff).mp h1

/-- Processing one group leaves every step outside the group untouched
(dispatch mutates only group indices; result application mutates only the
unique owners of the group's ids). -/
theorem group_frame (executor : Executor) (cfg : ExecutionConfig)
    (g : List Nat) (steps : List WorkflowStep) (outputs : List (String × String))
    (hnd : (steps.map (fun s => s.id)).Nodup)
    (i : Nat) (si : WorkflowStep) (hi : steps[i]? = some si) (hig : i ∉ g) :
    (applyGroupResults cfg.continue_on_error
      (execStepGroup executor cfg g steps outputs).results
      (execStepGroup executor cfg g steps outputs).steps
      (execStepGroup executor cfg g steps outputs).outputs).2.1[i]? = some si := by
  have hdisp : (execStepGroup executor cfg g steps outputs).steps[i]? = some si := by
    rw [execStepGroup_getElem_notin executor cfg g steps outputs i hig]
    exact hi
  apply applyGroupResults_frame _ _ _ _ i si hdisp
  intro kv hkv
  rcases execStepGroup_keys executor cfg g steps outputs kv hkv with
    ⟨j, hj, sj, hsj, hkey⟩
  rw [hkey]
  exact ids_ne_of_nodup steps hnd i j si sj hi hsj
    (fun h => hig (by rw [h]; exact hj))

/-- Processing one group preserves the id sequence of the step list. -/
theorem group_ids (executor : Executor) (cfg : ExecutionConfig)
    (g : List Nat) (steps : List WorkflowStep)
    (outputs : List (String × String)) :
    (applyGroupResults cfg.continue_on_error
      (execStepGroup executor cfg g steps outputs).results
      (execStepGroup executor cfg g steps outputs).steps
      (execStepGroup executor cfg g steps outputs).outputs).2.1.map
        (fun s => s.id) = steps.map (fun s => s.id) := by
  rw [applyGroupResults_map_id]
  exact map_strip_id_eq _ _ (execStepGroup_map_strip executor cfg g steps outputs)

/-- Abort behaviour of the group loop: when a run errors, the number of
groups dispatched is between one and the group count, the executor was
called exactly once per member of each dispatched group, and every step of
every undispatched group still carries its pristine pending state. -/
theorem runGroups_abort_spec (executor : Executor) (cfg : ExecutionConfig) :
    ∀ (GS : List (List Nat)) (steps : List WorkflowStep)
      (outputs : List (String × String)) (calls0 : List CallRec) (k0 : Nat)
      (e : String) (stepsF : List WorkflowStep)
      (outsF : List (String × String)) (callsF : List CallRec) (kF : Nat),
      runGroups executor cfg GS steps outputs calls0 k0 =
        (.error e, stepsF, outsF, callsF, kF) →
      GS.flatten.Nodup →
      (∀ i ∈ GS.flatten, i < steps.length) →
      (steps.map (fun s => s.id)).Nodup →
      (∀ i ∈ GS.flatten, ∃ s, steps[i]? = some s ∧
        s.status = WorkflowStatus.pending ∧ s.result = none) →
      k0 < kF ∧ kF ≤ k0 + GS.length ∧
      callsF.length = calls0.length + ((GS.take (kF - k0)).map List.length).sum ∧
      (∀ (gi : Nat) (g : List Nat), GS[gi]? = some g → kF - k0 ≤ gi →
        ∀ i ∈ g, ∃ s, stepsF[i]? = some s ∧
          s.status = WorkflowStatus.pending ∧ s.result = none) := by
  intro GS
  induction GS with
  | nil =>
    intro steps outputs calls0 k0 e stepsF outsF callsF kF hrun _ _ _ _
    rw [runGroups] at hrun
    have h2 := congrArg (fun x => x.1) hrun
    simp only at h2
    exact Except.noConfusion h2
  | cons g gs ih =>
    intro steps outputs calls0 k0 e stepsF outsF callsF kF hrun hnodup hvalid hids hpend
    have hflat : (g :: gs).flatten = g ++ gs.flatten := List.flatten_cons
    have hnd2 := List.nodup_append.mp (by rw [← hflat]; exact hnodup)
    have hdisj : ∀ i ∈ gs.flatten, i ∉ g := by
      intro i hi hig
      exact hnd2.2.2 hig hi
    have hvg : ∀ j ∈ g, j < steps.length := by
      intro j hj
      exact hvalid j (by rw [hflat]; exact List.mem_append.mpr (Or.inl hj))
    have hframe : ∀ i ∈ gs.flatten, ∃ s,
        (applyGroupResults cfg.continue_on_error
          (execStepGroup executor cfg g steps outputs).results
          (execStepGroup executor cfg g steps outputs).steps
          (execStepGroup executor cfg g steps outputs).outputs).2.1[i]? = some s ∧
        s.status = WorkflowStatus.pending ∧ s.result = none := by
      intro i hi
      rcases hpend i (by rw [hflat]; exact List.mem_append.mpr (Or.inr hi)) with
        ⟨si, hsi, hsp, hsr⟩
      exact ⟨si, group_frame executor cfg g steps outputs hids i si hsi
        (hdisj i hi), hsp, hsr⟩
    have hidsA := group_ids executor cfg g steps outputs
    have hlenA : (applyGroupResults cfg.continue_on_error
        (execStepGroup executor cfg g steps outputs).results
        (execStepGroup executor cfg g steps outputs).steps
        (execStepGroup executor cfg g steps outputs).outputs).2.1.length =
        steps.length := map_id_length _ _ hidsA
    have hcallsg : (execStepGroup executor cfg g steps outputs).calls.length =
        g.length := execStepGroup_calls_length executor cfg g steps outputs hvg
    rw [runGroups] at hrun
    rcases happ : applyGroupResults cfg.continue_on_error
        (execStepGroup executor cfg g steps outputs).results
        (execStepGroup executor cfg g steps outputs).steps
        (execStepGroup executor cfg g steps outputs).outputs with ⟨ra, stepsA, outputsA⟩
    rw [happ] at hrun hframe hidsA hlenA
    simp only at hrun hframe hidsA hlenA
    cases ra with
    | error e2 =>
      simp only [Prod.mk.injEq] at hrun
      rcases hrun with ⟨he, hstepsF, houtsF, hcallsF, hkF⟩
      subst hstepsF
      subst hcallsF
      subst hkF
      refine ⟨by omega, by simp only [List.length_cons]; omega, ?_, ?_⟩
      · have h1 : k0 + 1 - k0 = 1 := by omega
        rw [h1]
        show (calls0 ++ (execStepGroup executor cfg g steps outputs).calls).length =
          calls0.length + (((g :: gs).take 1).map List.length).sum
        rw [List.length_append, hcallsg]
        simp
      · intro gi g2 hg2 hge i hig2
        have h1 : k0 + 1 - k0 = 1 := by omega
        rw [h1] at hge
        cases gi with
        | zero => omega
        | succ n =>
          rw [List.getElem?_cons_succ] at hg2
          apply hframe
          apply List.mem_flatten.mpr
          refine ⟨g2, ?_, hig2⟩
          rcases List.getElem?_eq_some.mp hg2 with ⟨hlt, hget⟩
          rw [← hget]
          exact List.getElem_mem hlt
    | ok u =>
      have hrest := ih stepsA outputsA
        (calls0 ++ (execStepGroup executor cfg g steps outputs).calls) (k0 + 1)
        e stepsF outsF callsF kF hrun hnd2.2.1
        (by
          intro i hi
          rw [hlenA]
          exact hvalid i (by rw [hflat]; exact List.mem_append.mpr (Or.inr hi)))
        (by rw [hidsA]; exact hids)
        hframe
      rcases hrest with ⟨hk1, hk2, hcalls, hlater⟩
      refine ⟨by omega, by simp only [List.length_cons]; omega, ?_, ?_⟩
      · obtain ⟨n, hn1, hn2⟩ : ∃ n, kF - k0 = n + 1 ∧ kF - (k0 + 1) = n :=
          ⟨kF - k0 - 1, by omega, by omega⟩
        rw [hn1, List.take_succ_cons]
        rw [hn2] at hcalls
        rw [hcalls, List.length_append, hcallsg]
        simp only [List.map_cons, List.sum_cons]
        omega
      · intro gi g2 hg2 hge i hig2
        cases gi with
        | zero => omega
        | succ n =>
          rw [List.getElem?_cons_succ] at hg2
          exact hlater n g2 hg2 (by omega) i hig2

/-- A successful plan schedules each remaining index exactly once: the
concatenation of the returned groups is a permutation of the remaining
list.  No status hypotheses are needed. -/
theorem planAux_ok_flatten :
    ∀ (fuel : Nat) (steps : List WorkflowStep) (remaining : List Nat)
      (groups : List (List Nat)) (steps2 : List WorkflowStep),
      planAux fuel steps remaining = (.ok groups, steps2) →
      (∀ i ∈ remaining, i < steps.length) →
      groups.flatten.Perm remaining := by
  intro fuel
  induction fuel with
  | zero =>
    intro steps remaining groups steps2 hrun hvalid
    rw [planAux] at hrun
    by_cases h1 : remaining.isEmpty
    · rw [if_pos h1] at hrun
      simp only [Prod.mk.injEq, Except.ok.injEq] at hrun
      rw [← hrun.1]
      simp [List.isEmpty_iff.mp h1]
    · rw [if_neg h1] at hrun
      simp only [Prod.mk.injEq] at hrun
      exact Except.noConfusion hrun.1
  | succ f ih =>
    intro steps remaining groups steps2 hrun hvalid
    rw [planAux] at hrun
    by_cases h1 : remaining.isEmpty
    · rw [if_pos h1] at hrun
      simp only [Prod.mk.injEq, Except.ok.injEq] at hrun
      rw [← hrun.1]
      simp [List.isEmpty_iff.mp h1]
    · rw [if_neg h1] at hrun
      by_cases h2 : (remaining.filter (readyAt steps)).isEmpty
      · rw [if_pos h2] at hrun
        simp only [Prod.mk.injEq] at hrun
        exact Except.noConfusion hrun.1
      · rw [if_neg h2] at hrun
        simp only [Prod.mk.injEq] at hrun
        rcases hq : planAux f
            (markCompleted steps (remaining.filter (readyAt steps)))
            (remaining.filter (fun i => !(readyAt steps i))) with ⟨res1, stepsR⟩
        rw [hq] at hrun
        simp only at hrun
        rcases hrun with ⟨hmap, _⟩
        cases res1 with
        | error e2 => exact Except.noConfusion hmap
        | ok gs2 =>
          simp only [Except.map, Except.ok.injEq] at hmap
          rw [← hmap, List.flatten_append]
          have hvr : ∀ i ∈ remaining.filter (readyAt steps), i < steps.length := by
            intro i hi
            exact hvalid i (List.mem_of_mem_filter hi)
          have hperm1 := roundGroups_flatten_perm steps
            (remaining.filter (readyAt steps)) hvr
          have hlen : (markCompleted steps
              (remaining.filter (readyAt steps))).length = steps.length :=
            length_eq_of_strip _ _
              (markCompleted_map_strip (remaining.filter (readyAt steps)) steps)
          have hperm2 := ih
            (markCompleted steps (remaining.filter (readyAt steps)))
            (remaining.filter (fun i => !(readyAt steps i))) gs2 stepsR hq
            (by
              intro i hi
              rw [hlen]
              exact hvalid i (List.mem_of_mem_filter hi))
          exact (hperm1.append hperm2).trans
            (List.filter_append_perm (readyAt steps) remaining)

/-- The group loop preserves the id sequence of the step list. -/
theorem runGroups_map_id (executor : Executor) (cfg : ExecutionConfig) :
    ∀ (GS : List (List Nat)) (steps : List WorkflowStep)
      (outputs : List (String × String)) (calls0 : List CallRec) (k0 : Nat),
      (runGroups executor cfg GS steps outputs calls0 k0).2.1.map (fun s => s.id) =
        steps.map (fun s => s.id) := by
  intro GS
  induction GS with
  | nil => intro steps outputs calls0 k0; rw [runGroups]
  | cons g gs ih =>
    intro steps outputs calls0 k0
    rw [runGroups]
    have hidsA := group_ids executor cfg g steps outputs
    rcases hq : (applyGroupResults cfg.continue_on_error
        (execStepGroup executor cfg g steps outputs).results
        (execStepGroup executor cfg g steps outputs).steps
        (execStepGroup executor cfg g steps outputs).outputs) with ⟨ra, stepsA, outputsA⟩
    rw [hq] at hidsA
    simp only at hidsA
    cases ra with
    | error e => exact hidsA
    | ok u => rw [ih]; exact hidsA

/-- Inversion of a successful plan: the returned step list is the input
list with every status reset to `Pending`, and the groups schedule every
step index exactly once. -/
theorem planExecutionGroups_ok_inv (w : Workflow) (groups : List (List Nat))
    (stepsP : List WorkflowStep)
    (hp : planExecutionGroups w = (.ok groups, stepsP)) :
    stepsP = w.steps.map stripStatus ∧
    groups.flatten.Perm (List.range w.steps.length) := by
  rcases hq : planAux w.steps.length w.steps (List.range w.steps.length) with ⟨r, steps2⟩
  rw [planExecutionGroups, hq] at hp
  cases r with
  | error e =>
    have h2 := congrArg Prod.fst hp
    simp only at h2
    exact Except.noConfusion h2
  | ok g2 =>
    simp only [Prod.mk.injEq, Except.ok.injEq] at hp
    rcases hp with ⟨hg, hs⟩
    constructor
    · rw [← hs, resetPending_eq_map]
      have h3 := planAux_map_strip w.steps.length w.steps (List.range w.steps.length)
      rw [hq] at h3
      exact h3
    · subst hg
      exact planAux_ok_flatten w.steps.length w.steps (List.range w.steps.length)
        g2 steps2 hq (fun i hi => List.mem_range.mp hi)

/-- Third step of the halt counterexample chain, in a group after the
failing step. -/
def chainStepC : WorkflowStep :=
  { id := "step_2", pattern := "pc", depends_on := ["step_1"] }

/-- Three-step chain whose middle step fails: step_2 sits in a group after
the failure. -/
def chainWorkflow : Workflow :=
  { id := "w", name := "w", steps := [abortStepA, abortStepB, chainStepC] }

/-- C4 counterexample to "absent from results": after step_1 fails, the
later-group step step_2 keeps status `Pending`, yet its key is PRESENT in
the returned step results, bound to a null value, because the dict is built
over every step of the workflow. -/
theorem later_group_entry_counterexample :
    (executeWorkflow abortExecutor chainWorkflow "init" 0 1).1.success = false ∧
    dictGet (executeWorkflow abortExecutor chainWorkflow "init" 0 1).1.step_results
      "step_2" = some none ∧
    ((executeWorkflow abortExecutor chainWorkflow "init" 0 1).2.1.steps.map
      (fun s => s.status)) =
      [WorkflowStatus.completed, WorkflowStatus.failed, WorkflowStatus.pending] ∧
    (executeWorkflow abortExecutor chainWorkflow "init" 0 1).2.2.2 = 2 :=
  ⟨rfl, rfl, rfl, rfl⟩

/-- C4 (amended): with `continue_on_error = false`, a run that fails after
a successful plan dispatched between one and all of the planned groups and
made exactly one executor call per member of each dispatched group — so no
group after the failing one was ever dispatched.  Every step of every
undispatched later group still has status `Pending` with a null result, and
its entry in the returned step results is therefore present with value
null (not absent, as the spec says).  The returned step results map every
step's id to exactly that step's recorded result, so all results applied
before the failure are retained. -/
theorem execute_halt_on_failure (executor : Executor) (w : Workflow)
    (input_text : String) (t0 t1 : Int) (groups : List (List Nat))
    (res : ExecResult) (wf2 : Workflow) (calls : List CallRec) (k : Nat)
    (hu : (w.steps.map (fun s => s.id)).Nodup)
    (hcoe : w.config.continue_on_error = false)
    (hfresh : ∀ s ∈ w.steps, s.result = none)
    (hp : (planExecutionGroups
        { w with status := WorkflowStatus.running, start_time := some t0 }).1 =
      .ok groups)
    (hrun : executeWorkflow executor w input_text t0 t1 = (res, wf2, calls, k))
    (hfail : res.success = false) :
    1 ≤ k ∧ k ≤ groups.length ∧
    calls.length = ((groups.take k).map List.length).sum ∧
    (∀ (gi : Nat) (g : List Nat), groups[gi]? = some g → k ≤ gi →
      ∀ i ∈ g, ∃ s, wf2.steps[i]? = some s ∧
        s.status = WorkflowStatus.pending ∧ s.result = none ∧
        dictGet res.step_results s.id = some none) ∧
    (∀ s ∈ wf2.steps, dictGet res.step_results s.id = some s.result) := by
  rcases hP : planExecutionGroups
      { w with status := WorkflowStatus.running, start_time := some t0 } with ⟨pr, stepsP⟩
  rw [hP] at hp
  simp only at hp
  subst hp
  rcases planExecutionGroups_ok_inv _ groups stepsP hP with ⟨hsp, hperm⟩
  have hsp2 : stepsP = w.steps.map stripStatus := hsp
  have hperm2 : groups.flatten.Perm (List.range w.steps.length) := hperm
  have hids_stepsP : stepsP.map (fun s => s.id) = w.steps.map (fun s => s.id) := by
    rw [hsp2, List.map_map]
    rfl
  have hlenP : stepsP.length = w.steps.length := by
    rw [hsp2, List.length_map]
  rcases hr : runGroups executor w.config groups stepsP [("_initial", input_text)] [] 0
    with ⟨rr, stepsF, outsF, callsF, kF⟩
  cases rr with
  | ok u =>
    cases u
    have heq := executeWorkflow_run_ok_eq executor w input_text t0 t1 groups stepsP
      stepsF outsF callsF kF hP hr
    rw [heq] at hrun
    have hsucc : res.success = true := by
      have h2 := congrArg (fun x => x.1.success) hrun
      simpa using h2
    rw [hsucc] at hfail
    exact Bool.noConfusion hfail
  | error e =>
    have heq := executeWorkflow_run_error_eq executor w input_text t0 t1 groups stepsP
      e stepsF outsF callsF kF hP hr
    rw [heq] at hrun
    simp only [Prod.mk.injEq] at hrun
    rcases hrun with ⟨hres, hwf2, hcalls, hk⟩
    have hwf2s : wf2.steps = stepsF := by rw [← hwf2]
    have hressr : res.step_results = stepResultsDict stepsF := by rw [← hres]
    have hflatnodup : groups.flatten.Nodup :=
      (hperm2.nodup_iff).mpr (List.nodup_range _)
    have hbnd : ∀ i ∈ groups.flatten, i < stepsP.length := by
      intro i hi
      rw [hlenP]
      exact List.mem_range.mp (hperm2.mem_iff.mp hi)
    have hidsP_nodup : (stepsP.map (fun s => s.id)).Nodup := by
      rw [hids_stepsP]
      exact hu
    have hpend : ∀ i ∈ groups.flatten, ∃ s, stepsP[i]? = some s ∧
        s.status = WorkflowStatus.pending ∧ s.result = none := by
      intro i hi
      have hilt : i < w.steps.length := List.mem_range.mp (hperm2.mem_iff.mp hi)
      refine ⟨stripStatus (w.steps[i]), ?_, rfl, ?_⟩
      · rw [hsp2, List.getElem?_map, List.getElem?_eq_getElem hilt]
        rfl
      · show (w.steps[i]).result = none
        exact hfresh _ (List.getElem_mem hilt)
    have habort := runGroups_abort_spec executor w.config groups stepsP
      [("_initial", input_text)] [] 0 e stepsF outsF callsF kF hr
      hflatnodup hbnd hidsP_nodup hpend
    rcases habort with ⟨hk1, hk2, hcallsF, hlater⟩
    have hidsF : stepsF.map (fun s => s.id) = stepsP.map (fun s => s.id) := by
      have h2 := runGroups_map_id executor w.config groups stepsP
        [("_initial", input_text)] [] 0
      rw [hr] at h2
      exact h2
    have hndF : (stepsF.map (fun s => s.id)).Nodup := by
      rw [hidsF]
      exact hidsP_nodup
    have hlook := stepResultsDict_lookup stepsF hndF
    subst hcalls
    subst hk
    refine ⟨by omega, by omega, ?_, ?_, ?_⟩
    · simpa using hcallsF
    · intro gi g hg hge i hig
      rcases hlater gi g hg (by omega) i hig with ⟨s, hs, hstat, hresnone⟩
      refine ⟨s, by rw [hwf2s]; exact hs, hstat, hresnone, ?_⟩
      rw [hressr]
      have hmem : s ∈ stepsF := by
        rcases List.getElem?_eq_some.mp hs with ⟨hlt, hget⟩
        rw [← hget]
        exact List.getElem_mem hlt
      rw [hlook s hmem, hresnone]
    · intro s hs
      rw [hressr]
      exact hlook s (by rw [hwf2s] at hs; exact hs)

/-- C4 witness: the three-step chain run, whose plan is
`[[0], [1], [2]]`, halts after two dispatched groups. -/
theorem execute_halt_on_failure_witness :
    1 ≤ (executeWorkflow abortExecutor chainWorkflow "init" 0 1).2.2.2 ∧
    (executeWorkflow abortExecutor chainWorkflow "init" 0 1).2.2.2 ≤
      ([[0], [1], [2]] : List (List Nat)).length ∧
    (executeWorkflow abortExecutor chainWorkflow "init" 0 1).2.2.1.length =
      ((([[0], [1], [2]] : List (List Nat)).take
        (executeWorkflow abortExecutor chainWorkflow "init" 0 1).2.2.2).map
          List.length).sum ∧
    (∀ (gi : Nat) (g : List Nat),
      ([[0], [1], [2]] : List (List Nat))[gi]? = some g →
      (executeWorkflow abortExecutor chainWorkflow "init" 0 1).2.2.2 ≤ gi →
      ∀ i ∈ g, ∃ s,
        (executeWorkflow abortExecutor chainWorkflow "init" 0 1).2.1.steps[i]? =
          some s ∧
        s.status = WorkflowStatus.pending ∧ s.result = none ∧
        dictGet (executeWorkflow abortExecutor
          chainWorkflow "init" 0 1).1.step_results s.id = some none) ∧
    (∀ s ∈ (executeWorkflow abortExecutor chainWorkflow "init" 0 1).2.1.steps,
      dictGet (executeWorkflow abortExecutor
        chainWorkflow "init" 0 1).1.step_results s.id = some s.result) :=
  execute_halt_on_failure abortExecutor chainWorkflow "init" 0 1 [[0], [1], [2]]
    (executeWorkflow abortExecutor chainWorkflow "init" 0 1).1
    (executeWorkflow abortExecutor chainWorkflow "init" 0 1).2.1
    (executeWorkflow abortExecutor chainWorkflow "init" 0 1).2.2.1
    (executeWorkflow abortExecutor chainWorkflow "init" 0 1).2.2.2
    (by decide) rfl (by decide) rfl rfl rfl

end Fabric
